import Mathlib

/-!
Verification of the promise-pool scheduler (src/lib/promise-pool.ts).

The pool is embedded as a state machine.  Synchronous pool code
(`add`, `start`, `_start`, `_next`, `pause`, `resume`, `reset`,
`_notifyProgress`) becomes pure Lean functions on a `Pool` record; the
asynchronous parts (an in-flight task's current processor attempt settling,
the queued `reset` continuation firing) become environment events `Ev`
consumed by a `step` function, and a run is a fold of `step` over an event
trace.  JavaScript numbers holding counters are modelled as `Int` so that
decrements are not silently truncated; a JavaScript `throw` escaping a
handler is an explicit `Option Err`.

The q-retry dependency (`Q.retry(fn, onRetry, {limit, ...})`) is external to
the repository; its state is embedded as the `remaining` field of an
in-flight `Running` record, following the spec's Retry Controller (section
4.2) and the way `_process` consumes its callbacks: on a failed attempt with
retries remaining, `onRetry(reason, retries)` is called with the non-zero
remaining count and the processor is re-invoked with the same payload and
index; with none remaining, `onRetry(reason, 0)` is called and the chain
rejects.  A callback that itself throws aborts the chain (no re-invocation),
leaving an unhandled rejection.

Fields marked ghost below are proof instrumentation only: they record what
happened (progress events delivered, admissions, unhandled rejections,
resolved completion results) and are never read by the modelled code paths.
-/

namespace PromisePool

/-- Errors observable in the embedding: `typeError` is the TypeError raised
when the code dereferences the not-yet-created `_deferred`
(`this._deferred.resolve(...)` with `_deferred` undefined); `userError n`
stands for an arbitrary JavaScript error value (observer throws, processor
rejection reasons), tagged by a number. -/
inductive Err where
  | typeError
  | userError (tag : Nat)
deriving DecidableEq, Repr

/-- The `IResult` interface of src/lib/promise-pool.ts: the final counters
snapshot carried by the completion promise. -/
structure IResult where
  fulfilled : Int
  rejected : Int
  total : Int
deriving DecidableEq, Repr

/-- The `IProgress` interface of src/lib/promise-pool.ts.  `retries` is
`none` on the success path (the code passes `null`) and the remaining retry
count reported by q-retry on the failure paths. -/
structure IProgress where
  index : Nat
  success : Bool
  error : Option Err
  retries : Option Nat
  fulfilled : Int
  rejected : Int
  pending : Int
  total : Int
deriving DecidableEq, Repr

/-- State of a Q deferred.  The source never calls `reject` on either of its
deferreds; the `rejectedD` constructor exists so that this is provable
rather than built in. -/
inductive Deferred (A : Type) where
  | pending
  | resolved (v : A)
  | rejectedD (e : Err)
deriving DecidableEq, Repr

/-- Resolving a Q deferred settles it only if it is still pending;
resolving an already-settled deferred is a no-op. -/
def Deferred.resolve {A : Type} : Deferred A → A → Deferred A
  | .pending, v => .resolved v
  | d, _ => d

/-- The `promise.isPending()` check used by `add` and `pause`. -/
def Deferred.isPending {A : Type} : Deferred A → Bool
  | .pending => true
  | _ => false

/-- One in-flight task: the state of its q-retry chain created by
`_process(data, index)`.  `data` and `index` are the arguments fixed by
`_process` for the whole chain; `remaining` is q-retry's remaining retry
count, initialised from the pool's `retries` at admission (the options
object is built inside `_process`).  `seq` (enqueue sequence number),
`budget` (the retry budget captured at admission) and `invocations`
(processor invocations so far) are ghost instrumentation. -/
structure Running (T : Type) where
  data : T
  index : Nat
  remaining : Nat
  seq : Nat
  budget : Nat
  invocations : Nat
deriving Repr

/-- The observable state of a `Pool<T>` instance plus ghost instrumentation.
Field names follow the class fields of src/lib/promise-pool.ts (leading
underscores dropped; `_tasksData` is `tasksData`, `_currentConcurrency` is
`currentConcurrency`).  The backlog carries each payload paired with its
ghost enqueue sequence number.  The retry-interval fields only feed the
backoff timer, which has no effect on any observable modelled here, so they
are omitted. -/
structure Pool (T : Type) where
  concurrency : Int
  endless : Bool
  retries : Nat
  tasksData : List (T × Nat)
  fulfilled : Int
  rejected : Int
  pending : Int
  total : Int
  index : Nat
  currentConcurrency : Int
  deferred : Option (Deferred IResult)
  pauseDeferred : Option (Deferred Unit)
  onProgress : Option (IProgress → Except Err Unit)
  running : List (Running T)
  enqueued : Nat
  leaked : Int
  admittedLog : List (Nat × Nat)
  events : List IProgress
  unhandled : List Err
  completionLog : List (IResult × Int)
  startReturns : List Bool
  resetPending : Bool

/-- The state of a freshly constructed pool: the constructor stores
`concurrency`, `processor` and `endless` and leaves every counter at its
field initialiser (0, empty backlog, no deferreds, `retries = 0`).  A
constructor call with initial `tasksData` is this state followed by an
`add` event, exactly as the constructor body calls `this.add(tasksData)`. -/
def initPool (T : Type) (concurrency : Int) (endless : Bool) : Pool T :=
  { concurrency := concurrency, endless := endless, retries := 0,
    tasksData := [], fulfilled := 0, rejected := 0, pending := 0, total := 0,
    index := 0, currentConcurrency := 0, deferred := none,
    pauseDeferred := none, onProgress := none, running := [],
    enqueued := 0, leaked := 0, admittedLog := [], events := [],
    unhandled := [], completionLog := [], startReturns := [],
    resetPending := false }

/-- The progress snapshot `_notifyProgress` builds from the current counters
before invoking the observer. -/
def mkProgress (s : Pool T) (index : Nat) (success : Bool)
    (error : Option Err) (retries : Option Nat) : IProgress :=
  { index := index, success := success, error := error, retries := retries,
    fulfilled := s.fulfilled, rejected := s.rejected,
    pending := s.pending, total := s.total }

/-- What `_notifyProgress` does with the observer: if one is installed
(`typeof this.onProgress == 'function'`) it is invoked on the snapshot; the
result is the error it throws, if any. -/
def notifyErr (s : Pool T) (p : IProgress) : Option Err :=
  match s.onProgress with
  | none => none
  | some f =>
      match f p with
      | .ok _ => none
      | .error e => some e

/-- Ghost: the observer invocations a `_notifyProgress` call contributes to
the event log (one when an observer is installed, none otherwise). -/
def notifyLog (s : Pool T) (p : IProgress) : List IProgress :=
  match s.onProgress with
  | none => []
  | some _ => [p]

/-- Ghost: record an unhandled rejection, if any. -/
def recordErr (s : Pool T) : Option Err → Pool T
  | none => s
  | some e => { s with unhandled := s.unhandled ++ [e] }

/-- One iteration of the `_start` admission loop body:
`this._currentConcurrency++; this._process(this._tasksData.shift(),
this._index++)`.  Admitting dispatches a fresh q-retry chain whose retry
budget is the pool's current `retries`. -/
def admitOne (s : Pool T) (t : T × Nat) : Pool T :=
  { s with currentConcurrency := s.currentConcurrency + 1,
           index := s.index + 1,
           running := s.running ++
             [{ data := t.1, index := s.index, remaining := s.retries,
                seq := t.2, budget := s.retries, invocations := 1 }],
           admittedLog := s.admittedLog ++ [(s.index, t.2)] }

/-- The `while (this._currentConcurrency < this.concurrency &&
this._tasksData.length)` loop of `_start`, with the backlog passed
explicitly so the recursion is structural; callers pass `s.tasksData`. -/
def startLoop (s : Pool T) : List (T × Nat) → Pool T
  | [] => { s with tasksData := [] }
  | t :: rest =>
      if s.currentConcurrency < s.concurrency then
        startLoop (admitOne s t) rest
      else
        { s with tasksData := t :: rest }

/-- The `IResult` snapshot `_start` resolves the completion deferred with. -/
def poolResult (s : Pool T) : IResult :=
  { fulfilled := s.fulfilled, rejected := s.rejected, total := s.total }

/-- The body of the terminal-completion check once it fires
(`this._deferred.resolve({...})`): with `_deferred` still undefined the
dereference raises a TypeError; otherwise the deferred is resolved with the
current counters (a no-op if it already settled).  The completion log
records each actual resolution with the `pending` counter at that instant
(ghost). -/
def sweepDone (s : Pool T) : Pool T × Option Err :=
  match s.deferred with
  | none => (s, some Err.typeError)
  | some d =>
      ({ s with deferred := some (d.resolve (poolResult s)),
                completionLog :=
                  if d.isPending then s.completionLog ++ [(poolResult s, s.pending)]
                  else s.completionLog }, none)

/-- The terminal-completion check of `_start`:
`if (!this.endless && !this._currentConcurrency)`. -/
def sweepCheck (s : Pool T) : Pool T × Option Err :=
  if s.endless = false ∧ s.currentConcurrency = 0 then sweepDone s
  else (s, none)

/-- `_start`: the admission loop followed by the terminal-completion check.
The returned `Option Err` is the error escaping the call, if any. -/
def startSweep (s0 : Pool T) : Pool T × Option Err :=
  sweepCheck (startLoop s0 s0.tasksData)

/-- The branch of `_next` taken after the slot release: resolve the pause
deferred once the running count reaches 0 while paused, or trigger a fresh
admission sweep when not paused. -/
def pauseCheck (s : Pool T) : Pool T × Option Err :=
  match s.pauseDeferred with
  | some pd =>
      if s.currentConcurrency = 0 then
        ({ s with pauseDeferred := some (pd.resolve ()) }, none)
      else (s, none)
  | none => startSweep s

/-- `_next`: release the slot, then check pause state / sweep. -/
def nextSlot (s0 : Pool T) : Pool T × Option Err :=
  pauseCheck { s0 with currentConcurrency := s0.currentConcurrency - 1 }

/-- Ghost: the event-log append a `_notifyProgress` call performs. -/
def logEvent (s : Pool T) (p : IProgress) : Pool T :=
  { s with events := s.events ++ notifyLog s p }

/-- Shared tail of the success handler and of the terminal-failure callback
of `_process`, starting from the state in which the settled chain has been
removed and the counters updated: `_notifyProgress(...)` then `_next()`.
If the observer throws, the rest of the handler — in particular `_next()` —
never runs: the slot is never released (ghost `leaked`) and the error
becomes an unhandled rejection of the task's chain.  An error escaping the
`_next` in this asynchronous context is likewise unhandled. -/
def notifyThenNext (s : Pool T) (p : IProgress) : Pool T :=
  match notifyErr s p with
  | some e =>
      { logEvent s p with unhandled := s.unhandled ++ [e],
                          leaked := s.leaked + 1 }
  | none => recordErr (nextSlot (logEvent s p)).1 (nextSlot (logEvent s p)).2

/-- The state after the success bookkeeping of `_process`'s `.then` handler:
`this.fulfilled++; this.pending--` with chain `k` finished. -/
def okState (s : Pool T) (k : Nat) : Pool T :=
  { s with running := s.running.eraseIdx k,
           fulfilled := s.fulfilled + 1, pending := s.pending - 1 }

/-- The state after the terminal-failure bookkeeping of `_process`'s retry
callback: `this.rejected++; this.pending--` with chain `k` finished. -/
def failState (s : Pool T) (k : Nat) : Pool T :=
  { s with running := s.running.eraseIdx k,
           rejected := s.rejected + 1, pending := s.pending - 1 }

/-- An in-flight task's current processor attempt settles successfully:
the `.then(() => { this.fulfilled++; this.pending--; this._notifyProgress
(index, true, null, null); this._next(); })` handler of `_process`. -/
def settleOkAt (s : Pool T) (k : Nat) : Option (Pool T) :=
  match s.running[k]? with
  | none => none
  | some t =>
      some (notifyThenNext (okState s k)
        (mkProgress (okState s k) t.index true none none))

/-- A failed attempt with retries remaining (`if (retries)` in the q-retry
callback): only the progress event is emitted and the processor is
re-invoked with the same payload and index — no counter changes, the slot
is held.  A throwing observer aborts the chain instead, forfeiting the
re-invocation. -/
def retryStep (s : Pool T) (k : Nat) (t : Running T) (reason : Err) :
    Pool T :=
  match notifyErr s (mkProgress s t.index false (some reason) (some t.remaining)) with
  | some e =>
      { logEvent s (mkProgress s t.index false (some reason) (some t.remaining)) with
          running := s.running.eraseIdx k,
          unhandled := s.unhandled ++ [e], leaked := s.leaked + 1 }
  | none =>
      { logEvent s (mkProgress s t.index false (some reason) (some t.remaining)) with
          running := s.running.set k
            { t with remaining := t.remaining - 1,
                     invocations := t.invocations + 1 } }

/-- An in-flight task's current processor attempt fails with `reason`:
q-retry invokes the `(reason, retries)` callback of `_process`, which
branches on the remaining retry count. -/
def settleFailAt (s : Pool T) (k : Nat) (reason : Err) : Option (Pool T) :=
  match s.running[k]? with
  | none => none
  | some t =>
      if 0 < t.remaining then some (retryStep s k t reason)
      else
        some (notifyThenNext (failState s k)
          (mkProgress (failState s k) t.index false (some reason) (some 0)))

/-- The `add` guard `this._deferred && !this._deferred.promise.isPending()`:
true once the pool has reached terminal completion without a reset. -/
def Pool.completed (s : Pool T) : Bool :=
  match s.deferred with
  | some d => !d.isPending
  | none => false

/-- Ghost tagging of newly enqueued payloads with their enqueue sequence
numbers `enq, enq + 1, ...`. -/
def addTag (enq : Nat) : List T → List (T × Nat)
  | [] => []
  | x :: xs => (x, enq) :: addTag (enq + 1) xs

/-- `add(tasksData)`: a no-op diagnostic on a completed unreset pool;
otherwise the counters and backlog grow by the batch and an admission sweep
runs immediately — note that nothing here consults the pause state.  A
single-item `add(taskData)` is the wrapped singleton batch. -/
def addOp (s : Pool T) (xs : List T) : Pool T × Option Err :=
  if s.completed then (s, none)
  else
    startSweep
      { s with total := s.total + (xs.length : Int),
               pending := s.pending + (xs.length : Int),
               tasksData := s.tasksData ++ addTag s.enqueued xs,
               enqueued := s.enqueued + xs.length }

/-- `start(onProgress?)`: a warn-only diagnostic if `_deferred` already
exists; otherwise stores the observer, creates the completion deferred and
sweeps.  The ghost `startReturns` records, per call, whether the call
returned a completion handle (`this.endless ? null : this._deferred
.promise`). -/
def pushStartReturn (r : Pool T × Option Err) : Pool T × Option Err :=
  ({ r.1 with startReturns := r.1.startReturns ++ [!r.1.endless] }, r.2)

def startOp (s : Pool T) (obs : Option (IProgress → Except Err Unit)) :
    Pool T × Option Err :=
  match s.deferred with
  | some _ => pushStartReturn (s, none)
  | none =>
      pushStartReturn
        (startSweep { s with onProgress := obs, deferred := some .pending })

/-- The deferred a first `pause()` call creates: resolved immediately when
the running count is already 0. -/
def pauseInit (s : Pool T) : Deferred Unit :=
  if s.currentConcurrency = 0 then .resolved () else .pending

/-- `pause()`: a warn-only diagnostic while a pause deferred exists;
otherwise creates it, resolved immediately when the running count is
already 0. -/
def pauseOp (s : Pool T) : Pool T :=
  match s.pauseDeferred with
  | some _ => s
  | none => { s with pauseDeferred := some (pauseInit s) }

/-- `resume()`: a warn-only diagnostic when not paused; otherwise clears the
pause deferred and sweeps (which may raise the `_start` TypeError if no
completion deferred exists yet). -/
def resumeOp (s : Pool T) : Pool T × Option Err :=
  match s.pauseDeferred with
  | none => (s, none)
  | some _ => startSweep { s with pauseDeferred := none }

/-- The synchronous part of `reset()`: `this.pause()` with the clearing
continuation queued on the returned promise (ghost `resetPending`). -/
def resetCallOp (s : Pool T) : Pool T :=
  { pauseOp s with resetPending := true }

/-- The `reset()` continuation, run once the pause promise has resolved:
clears the counters, index, backlog, both deferreds and the observer.  The
ghost logs are reset with it; `currentConcurrency`, `running` and `leaked`
are untouched, as in the source. -/
def resetFinishOp (s : Pool T) : Pool T :=
  { s with rejected := 0, fulfilled := 0, pending := 0, total := 0,
           index := 0, tasksData := [], deferred := none,
           pauseDeferred := none, onProgress := none,
           resetPending := false, enqueued := 0, admittedLog := [],
           events := [], unhandled := [], completionLog := [],
           startReturns := [] }

/-- Environment events: the pool's public calls, the settlement of an
in-flight task's current attempt (chosen by the environment among the
`running` chains), the firing of the queued reset continuation, and live
reconfiguration of the public `concurrency` / `retries` / `endless`
fields. -/
inductive Ev (T : Type) where
  | add (xs : List T)
  | start (obs : Option (IProgress → Except Err Unit))
  | settleOk (k : Nat)
  | settleFail (k : Nat) (reason : Err)
  | pause
  | resume
  | resetCall
  | resetFinish
  | setConcurrency (c : Int)
  | setRetries (r : Nat)
  | setEndless (b : Bool)

/-- One event of the single-threaded cooperative dispatch.  The second
component is the error escaping the synchronous call, if any (settlements
run in asynchronous context, so their errors are recorded as unhandled
rejections inside the state instead).  `none` means the event is not
enabled in this state. -/
def step (s : Pool T) : Ev T → Option (Pool T × Option Err)
  | .add xs => some (addOp s xs)
  | .start obs => some (startOp s obs)
  | .settleOk k => (settleOkAt s k).map (fun s' => (s', none))
  | .settleFail k reason => (settleFailAt s k reason).map (fun s' => (s', none))
  | .pause => some (pauseOp s, none)
  | .resume => some (resumeOp s)
  | .resetCall => some (resetCallOp s, none)
  | .resetFinish =>
      if s.resetPending = true ∧ s.pauseDeferred = some (.resolved ()) then
        some (resetFinishOp s, none)
      else none
  | .setConcurrency c => some ({ s with concurrency := c }, none)
  | .setRetries r => some ({ s with retries := r }, none)
  | .setEndless b => some ({ s with endless := b }, none)

/-- Run an event trace from a state. -/
def run (s : Pool T) : List (Ev T) → Option (Pool T)
  | [] => some s
  | e :: tr =>
      match step s e with
      | none => none
      | some r => run r.1 tr

/-! Fields the admission loop never writes. -/

theorem startLoop_proj {T : Type} {A : Type} (f : Pool T → A)
    (h1 : ∀ (s : Pool T) (t : T × Nat), f (admitOne s t) = f s)
    (h2 : ∀ (s : Pool T) (bl : List (T × Nat)), f { s with tasksData := bl } = f s) :
    ∀ (bl : List (T × Nat)) (s : Pool T), f (startLoop s bl) = f s := by
  intro bl
  induction bl with
  | nil => intro s; exact h2 s []
  | cons t rest ih =>
      intro s
      rw [startLoop]
      split
      · rw [ih, h1]
      · exact h2 s (t :: rest)

@[simp] theorem startLoop_fulfilled (bl : List (T × Nat)) (s : Pool T) :
    (startLoop s bl).fulfilled = s.fulfilled :=
  startLoop_proj Pool.fulfilled (fun _ _ => rfl) (fun _ _ => rfl) bl s

@[simp] theorem startLoop_rejected (bl : List (T × Nat)) (s : Pool T) :
    (startLoop s bl).rejected = s.rejected :=
  startLoop_proj Pool.rejected (fun _ _ => rfl) (fun _ _ => rfl) bl s

@[simp] theorem startLoop_pending (bl : List (T × Nat)) (s : Pool T) :
    (startLoop s bl).pending = s.pending :=
  startLoop_proj Pool.pending (fun _ _ => rfl) (fun _ _ => rfl) bl s

@[simp] theorem startLoop_total (bl : List (T × Nat)) (s : Pool T) :
    (startLoop s bl).total = s.total :=
  startLoop_proj Pool.total (fun _ _ => rfl) (fun _ _ => rfl) bl s

@[simp] theorem startLoop_endless (bl : List (T × Nat)) (s : Pool T) :
    (startLoop s bl).endless = s.endless :=
  startLoop_proj Pool.endless (fun _ _ => rfl) (fun _ _ => rfl) bl s

@[simp] theorem startLoop_concurrency (bl : List (T × Nat)) (s : Pool T) :
    (startLoop s bl).concurrency = s.concurrency :=
  startLoop_proj Pool.concurrency (fun _ _ => rfl) (fun _ _ => rfl) bl s

@[simp] theorem startLoop_retries (bl : List (T × Nat)) (s : Pool T) :
    (startLoop s bl).retries = s.retries :=
  startLoop_proj Pool.retries (fun _ _ => rfl) (fun _ _ => rfl) bl s

@[simp] theorem startLoop_deferred (bl : List (T × Nat)) (s : Pool T) :
    (startLoop s bl).deferred = s.deferred :=
  startLoop_proj Pool.deferred (fun _ _ => rfl) (fun _ _ => rfl) bl s

@[simp] theorem startLoop_pauseDeferred (bl : List (T × Nat)) (s : Pool T) :
    (startLoop s bl).pauseDeferred = s.pauseDeferred :=
  startLoop_proj Pool.pauseDeferred (fun _ _ => rfl) (fun _ _ => rfl) bl s

@[simp] theorem startLoop_onProgress (bl : List (T × Nat)) (s : Pool T) :
    (startLoop s bl).onProgress = s.onProgress :=
  startLoop_proj Pool.onProgress (fun _ _ => rfl) (fun _ _ => rfl) bl s

@[simp] theorem startLoop_events (bl : List (T × Nat)) (s : Pool T) :
    (startLoop s bl).events = s.events :=
  startLoop_proj Pool.events (fun _ _ => rfl) (fun _ _ => rfl) bl s

@[simp] theorem startLoop_unhandled (bl : List (T × Nat)) (s : Pool T) :
    (startLoop s bl).unhandled = s.unhandled :=
  startLoop_proj Pool.unhandled (fun _ _ => rfl) (fun _ _ => rfl) bl s

@[simp] theorem startLoop_completionLog (bl : List (T × Nat)) (s : Pool T) :
    (startLoop s bl).completionLog = s.completionLog :=
  startLoop_proj Pool.completionLog (fun _ _ => rfl) (fun _ _ => rfl) bl s

@[simp] theorem startLoop_startReturns (bl : List (T × Nat)) (s : Pool T) :
    (startLoop s bl).startReturns = s.startReturns :=
  startLoop_proj Pool.startReturns (fun _ _ => rfl) (fun _ _ => rfl) bl s

@[simp] theorem startLoop_resetPending (bl : List (T × Nat)) (s : Pool T) :
    (startLoop s bl).resetPending = s.resetPending :=
  startLoop_proj Pool.resetPending (fun _ _ => rfl) (fun _ _ => rfl) bl s

@[simp] theorem startLoop_leaked (bl : List (T × Nat)) (s : Pool T) :
    (startLoop s bl).leaked = s.leaked :=
  startLoop_proj Pool.leaked (fun _ _ => rfl) (fun _ _ => rfl) bl s

@[simp] theorem startLoop_enqueued (bl : List (T × Nat)) (s : Pool T) :
    (startLoop s bl).enqueued = s.enqueued :=
  startLoop_proj Pool.enqueued (fun _ _ => rfl) (fun _ _ => rfl) bl s

/-- The admission loop only ever admits under the guard
`currentConcurrency < concurrency`, so a sweep never raises the running
count above the bound in force when it runs: this is how a lowered bound is
honored starting from the very next sweep. -/
theorem startLoop_cc_le (bl : List (T × Nat)) (s : Pool T) :
    (startLoop s bl).currentConcurrency ≤
      max s.currentConcurrency s.concurrency := by
  induction bl generalizing s with
  | nil => exact le_max_left _ _
  | cons t rest ih =>
      rw [startLoop]
      split
      case isTrue hlt =>
        refine le_trans (ih (admitOne s t)) ?_
        have h1 : s.currentConcurrency + 1 ≤ s.concurrency := hlt
        simp only [admitOne]
        omega
      case isFalse h => exact le_max_left _ _

/-- Admissions raise the running count and the in-flight list in lock
step. -/
theorem startLoop_slots (bl : List (T × Nat)) (s : Pool T) :
    (startLoop s bl).currentConcurrency -
      ((startLoop s bl).running.length : Int) =
    s.currentConcurrency - (s.running.length : Int) := by
  induction bl generalizing s with
  | nil => rfl
  | cons t rest ih =>
      rw [startLoop]
      split
      · rw [ih (admitOne s t)]
        simp only [admitOne, List.length_append, List.length_cons,
          List.length_nil]
        push_cast
        ring
      · rfl

/-- Tasks dispatched by the loop start their q-retry chain with one
processor invocation made and the full captured budget remaining. -/
theorem startLoop_budget (bl : List (T × Nat)) (s : Pool T)
    (h : ∀ t ∈ s.running, t.invocations + t.remaining = t.budget + 1) :
    ∀ t ∈ (startLoop s bl).running,
      t.invocations + t.remaining = t.budget + 1 := by
  induction bl generalizing s with
  | nil => exact h
  | cons t rest ih =>
      rw [startLoop]
      split
      · refine ih (admitOne s t) ?_
        intro u hu
        simp only [admitOne, List.mem_append, List.mem_singleton] at hu
        rcases hu with hu | hu
        · exact h u hu
        · subst hu; simp [Nat.add_comm]
      · exact h

@[simp] theorem addTag_snd (xs : List T) :
    ∀ enq : Nat, (addTag enq xs).map Prod.snd = List.range' enq xs.length := by
  induction xs with
  | nil => intro enq; rfl
  | cons x xs ih =>
      intro enq
      simp only [addTag, List.map_cons, List.length_cons, List.range'_succ, ih]

@[simp] theorem addTag_length (xs : List T) :
    ∀ enq : Nat, (addTag enq xs).length = xs.length := by
  induction xs with
  | nil => intro enq; rfl
  | cons x xs ih => intro enq; simp [addTag, ih]

/-- The global state invariant, maintained by every event from the initial
state: the counter identity of spec section 3; every delivered progress
snapshot and every resolved completion result satisfied it at capture time;
the running count equals the in-flight chains plus the slots leaked by
observer throws; every in-flight chain has made `budget + 1 - remaining`
processor invocations; and the admission log is exactly the indices
`0..index-1` in order, each equal to its task's enqueue sequence number,
with the backlog holding the next sequence numbers in enqueue order. -/
structure Good (s : Pool T) : Prop where
  sum : s.total = s.fulfilled + s.rejected + s.pending
  evs : ∀ p ∈ s.events, p.total = p.fulfilled + p.rejected + p.pending
  comp : ∀ q ∈ s.completionLog, q.1.total = q.1.fulfilled + q.1.rejected + q.2
  slots : s.currentConcurrency = (s.running.length : Int) + s.leaked
  leak : 0 ≤ s.leaked
  budget : ∀ t ∈ s.running, t.invocations + t.remaining = t.budget + 1
  log : s.admittedLog = (List.range s.index).map (fun i => (i, i))
  backlog : s.tasksData.map Prod.snd = List.range' s.index s.tasksData.length
  enq : s.enqueued = s.index + s.tasksData.length

theorem good_init (T : Type) (c : Int) (e : Bool) : Good (initPool T c e) := by
  constructor <;> simp [initPool]

theorem good_startLoop (bl : List (T × Nat)) (s : Pool T)
    (hsum : s.total = s.fulfilled + s.rejected + s.pending)
    (hevs : ∀ p ∈ s.events, p.total = p.fulfilled + p.rejected + p.pending)
    (hcomp : ∀ q ∈ s.completionLog,
      q.1.total = q.1.fulfilled + q.1.rejected + q.2)
    (hslots : s.currentConcurrency = (s.running.length : Int) + s.leaked)
    (hleak : 0 ≤ s.leaked)
    (hbud : ∀ t ∈ s.running, t.invocations + t.remaining = t.budget + 1)
    (hlog : s.admittedLog = (List.range s.index).map (fun i => (i, i)))
    (hbl : bl.map Prod.snd = List.range' s.index bl.length)
    (henq : s.enqueued = s.index + bl.length) :
    Good (startLoop s bl) := by
  induction bl generalizing s with
  | nil =>
      exact ⟨hsum, hevs, hcomp, hslots, hleak, hbud, hlog, rfl,
        by exact henq⟩
  | cons t rest ih =>
      rw [startLoop]
      split
      · have hsnd : t.2 = s.index ∧
            rest.map Prod.snd = List.range' (s.index + 1) rest.length := by
          rw [List.length_cons, List.range'_succ] at hbl
          simpa using hbl
        refine ih (admitOne s t) hsum hevs hcomp ?_ hleak ?_ ?_ ?_ ?_
        · simp only [admitOne, List.length_append, List.length_cons,
            List.length_nil]
          push_cast
          omega
        · intro u hu
          simp only [admitOne, List.mem_append, List.mem_singleton] at hu
          rcases hu with hu | hu
          · exact hbud u hu
          · subst hu; simp [Nat.add_comm]
        · simp [admitOne, hlog, hsnd.1, List.range_succ]
        · exact hsnd.2
        · simp only [admitOne, List.length_cons] at henq ⊢
          omega
      · refine ⟨hsum, hevs, hcomp, hslots, hleak, hbud, hlog, hbl, henq⟩

theorem good_sweepDone (s : Pool T) (h : Good s) : Good (sweepDone s).1 := by
  unfold sweepDone
  cases hd : s.deferred with
  | none => exact h
  | some d =>
      refine ⟨h.sum, h.evs, ?_, h.slots, h.leak, h.budget, h.log,
        h.backlog, h.enq⟩
      intro q hq
      simp only at hq
      split at hq
      · rcases List.mem_append.mp hq with hq | hq
        · exact h.comp q hq
        · rcases List.mem_singleton.mp hq with rfl
          simpa [poolResult] using h.sum
      · exact h.comp q hq

theorem good_sweepCheck (s : Pool T) (h : Good s) : Good (sweepCheck s).1 := by
  unfold sweepCheck
  split
  · exact good_sweepDone s h
  · exact h

theorem good_startSweep (s : Pool T) (h : Good s) :
    Good (startSweep s).1 :=
  good_sweepCheck _
    (good_startLoop s.tasksData s h.sum h.evs h.comp h.slots h.leak h.budget
      h.log h.backlog h.enq)

theorem good_recordErr (s : Pool T) (oe : Option Err) (h : Good s) :
    Good (recordErr s oe) := by
  cases oe with
  | none => exact h
  | some e =>
      exact ⟨h.sum, h.evs, h.comp, h.slots, h.leak, h.budget, h.log,
        h.backlog, h.enq⟩

theorem good_pauseCheck (s : Pool T) (h : Good s) : Good (pauseCheck s).1 := by
  unfold pauseCheck
  cases hpd : s.pauseDeferred with
  | none => exact good_startSweep s h
  | some pd =>
      dsimp only
      by_cases hc : s.currentConcurrency = 0
      · rw [if_pos hc]
        exact ⟨h.sum, h.evs, h.comp, h.slots, h.leak, h.budget, h.log,
          h.backlog, h.enq⟩
      · rw [if_neg hc]
        exact h

/-- `_next` restores the invariant from the intermediate state in which the
caller has already removed the settled chain but not yet released its
slot. -/
theorem good_nextSlot (s : Pool T)
    (hsum : s.total = s.fulfilled + s.rejected + s.pending)
    (hevs : ∀ p ∈ s.events, p.total = p.fulfilled + p.rejected + p.pending)
    (hcomp : ∀ q ∈ s.completionLog,
      q.1.total = q.1.fulfilled + q.1.rejected + q.2)
    (hslots : s.currentConcurrency = (s.running.length : Int) + s.leaked + 1)
    (hleak : 0 ≤ s.leaked)
    (hbud : ∀ t ∈ s.running, t.invocations + t.remaining = t.budget + 1)
    (hlog : s.admittedLog = (List.range s.index).map (fun i => (i, i)))
    (hbl : s.tasksData.map Prod.snd = List.range' s.index s.tasksData.length)
    (henq : s.enqueued = s.index + s.tasksData.length) :
    Good (nextSlot s).1 := by
  have hgood : Good { s with currentConcurrency := s.currentConcurrency - 1 } := by
    refine ⟨hsum, hevs, hcomp, ?_, hleak, hbud, hlog, hbl, henq⟩
    simp only
    omega
  exact good_pauseCheck _ hgood

theorem mem_notifyLog (s : Pool T) (p q : IProgress) (h : q ∈ notifyLog s p) :
    q = p := by
  unfold notifyLog at h
  cases ho : s.onProgress with
  | none => simp only [ho] at h; cases h
  | some f => simp only [ho] at h; exact List.mem_singleton.mp h

theorem good_notifyThenNext (s : Pool T) (p : IProgress)
    (hp : p.total = p.fulfilled + p.rejected + p.pending)
    (hsum : s.total = s.fulfilled + s.rejected + s.pending)
    (hevs : ∀ q ∈ s.events, q.total = q.fulfilled + q.rejected + q.pending)
    (hcomp : ∀ q ∈ s.completionLog,
      q.1.total = q.1.fulfilled + q.1.rejected + q.2)
    (hslots : s.currentConcurrency = (s.running.length : Int) + s.leaked + 1)
    (hleak : 0 ≤ s.leaked)
    (hbud : ∀ t ∈ s.running, t.invocations + t.remaining = t.budget + 1)
    (hlog : s.admittedLog = (List.range s.index).map (fun i => (i, i)))
    (hbl : s.tasksData.map Prod.snd = List.range' s.index s.tasksData.length)
    (henq : s.enqueued = s.index + s.tasksData.length) :
    Good (notifyThenNext s p) := by
  have hevs' : ∀ q ∈ (logEvent s p).events,
      q.total = q.fulfilled + q.rejected + q.pending := by
    intro q hq
    rcases List.mem_append.mp hq with hq | hq
    · exact hevs q hq
    · rw [mem_notifyLog s p q hq]; exact hp
  unfold notifyThenNext
  cases he : notifyErr s p with
  | some e =>
      refine ⟨hsum, hevs', hcomp, ?_, by simp only; omega, hbud, hlog,
        hbl, henq⟩
      simp only [logEvent]
      omega
  | none =>
      exact good_recordErr _ _
        (good_nextSlot (logEvent s p) hsum hevs' hcomp hslots hleak hbud
          hlog hbl henq)

theorem good_settleOkAt (s : Pool T) (k : Nat) (s' : Pool T) (h : Good s)
    (hs : settleOkAt s k = some s') : Good s' := by
  unfold settleOkAt at hs
  cases hget : s.running[k]? with
  | none => rw [hget] at hs; cases hs
  | some t =>
      rw [hget] at hs
      have hk : k < s.running.length := (List.getElem?_eq_some.mp hget).1
      have hlen : (s.running.eraseIdx k).length = s.running.length - 1 := by
        rw [List.length_eraseIdx, if_pos hk]
      cases hs
      apply good_notifyThenNext
      case hp => exact congrArg id (by simp [mkProgress, okState]; have := h.sum; omega)
      case hsum => simp only [okState]; have := h.sum; omega
      case hevs => exact h.evs
      case hcomp => exact h.comp
      case hslots =>
        simp only [okState, hlen]
        have := h.slots
        omega
      case hleak => exact h.leak
      case hbud =>
        intro u hu
        exact h.budget u (List.eraseIdx_subset _ _ hu)
      case hlog => exact h.log
      case hbl => exact h.backlog
      case henq => exact h.enq

theorem good_retryStep (s : Pool T) (k : Nat) (t : Running T) (reason : Err)
    (h : Good s) (hget : s.running[k]? = some t) (hrem : 0 < t.remaining) :
    Good (retryStep s k t reason) := by
  have hk : k < s.running.length := (List.getElem?_eq_some.mp hget).1
  have hmem : t ∈ s.running := by
    rcases List.getElem?_eq_some.mp hget with ⟨h1, h2⟩
    exact h2 ▸ List.getElem_mem h1
  have hlen : (s.running.eraseIdx k).length = s.running.length - 1 := by
    rw [List.length_eraseIdx, if_pos hk]
  have hevs' : ∀ q ∈ (logEvent s
      (mkProgress s t.index false (some reason) (some t.remaining))).events,
      q.total = q.fulfilled + q.rejected + q.pending := by
    intro q hq
    rcases List.mem_append.mp hq with hq | hq
    · exact h.evs q hq
    · rw [mem_notifyLog _ _ q hq]
      simpa [mkProgress] using h.sum
  unfold retryStep
  cases he : notifyErr s
      (mkProgress s t.index false (some reason) (some t.remaining)) with
  | some e =>
      refine ⟨h.sum, hevs', h.comp, ?_,
        by have := h.leak; simp only [logEvent]; omega,
        ?_, h.log, h.backlog, h.enq⟩
      · simp only [logEvent, hlen]
        have := h.slots
        omega
      · intro u hu
        exact h.budget u (List.eraseIdx_subset _ _ hu)
  | none =>
      refine ⟨h.sum, hevs', h.comp, ?_, h.leak, ?_, h.log, h.backlog, h.enq⟩
      · simp only [logEvent, List.length_set]
        exact h.slots
      · intro u hu
        rcases List.mem_or_eq_of_mem_set hu with hu | hu
        · exact h.budget u hu
        · subst hu
          have := h.budget t hmem
          simp only
          omega

theorem good_settleFailAt (s : Pool T) (k : Nat) (reason : Err)
    (s' : Pool T) (h : Good s) (hs : settleFailAt s k reason = some s') :
    Good s' := by
  unfold settleFailAt at hs
  cases hget : s.running[k]? with
  | none => rw [hget] at hs; cases hs
  | some t =>
      rw [hget] at hs
      dsimp only at hs
      have hk : k < s.running.length := (List.getElem?_eq_some.mp hget).1
      have hlen : (s.running.eraseIdx k).length = s.running.length - 1 := by
        rw [List.length_eraseIdx, if_pos hk]
      split at hs
      next hrem =>
        cases hs
        exact good_retryStep s k t reason h hget hrem
      next hrem =>
        cases hs
        apply good_notifyThenNext
        case hp => simp [mkProgress, failState]; have := h.sum; omega
        case hsum => simp only [failState]; have := h.sum; omega
        case hevs => exact h.evs
        case hcomp => exact h.comp
        case hslots =>
          simp only [failState, hlen]
          have := h.slots
          omega
        case hleak => exact h.leak
        case hbud =>
          intro u hu
          exact h.budget u (List.eraseIdx_subset _ _ hu)
        case hlog => exact h.log
        case hbl => exact h.backlog
        case henq => exact h.enq

theorem good_addOp (s : Pool T) (xs : List T) (h : Good s) :
    Good (addOp s xs).1 := by
  unfold addOp
  split
  · exact h
  · apply good_startSweep
    refine ⟨?_, h.evs, h.comp, h.slots, h.leak, h.budget, h.log, ?_, ?_⟩
    · simp only
      have := h.sum
      omega
    · simp only [List.map_append, addTag_snd, h.backlog, h.enq,
        List.length_append, addTag_length]
      have := List.range'_append s.index s.tasksData.length xs.length 1
      simp only [Nat.one_mul] at this
      rw [this, Nat.add_comm]
    · simp only [List.length_append, addTag_length]
      have := h.enq
      omega

theorem good_pushStartReturn (r : Pool T × Option Err) (h : Good r.1) :
    Good (pushStartReturn r).1 :=
  ⟨h.sum, h.evs, h.comp, h.slots, h.leak, h.budget, h.log, h.backlog, h.enq⟩

theorem good_startOp (s : Pool T)
    (obs : Option (IProgress → Except Err Unit)) (h : Good s) :
    Good (startOp s obs).1 := by
  unfold startOp
  cases hd : s.deferred with
  | some d => exact good_pushStartReturn _ h
  | none =>
      exact good_pushStartReturn _ (good_startSweep _
        ⟨h.sum, h.evs, h.comp, h.slots, h.leak, h.budget, h.log, h.backlog,
          h.enq⟩)

theorem good_pauseOp (s : Pool T) (h : Good s) : Good (pauseOp s) := by
  unfold pauseOp
  cases s.pauseDeferred with
  | some pd => exact h
  | none =>
      exact ⟨h.sum, h.evs, h.comp, h.slots, h.leak, h.budget, h.log,
        h.backlog, h.enq⟩

theorem good_resumeOp (s : Pool T) (h : Good s) : Good (resumeOp s).1 := by
  unfold resumeOp
  cases s.pauseDeferred with
  | none => exact h
  | some pd =>
      exact good_startSweep _
        ⟨h.sum, h.evs, h.comp, h.slots, h.leak, h.budget, h.log, h.backlog,
          h.enq⟩

theorem good_resetCallOp (s : Pool T) (h : Good s) : Good (resetCallOp s) := by
  have h2 := good_pauseOp s h
  exact ⟨h2.sum, h2.evs, h2.comp, h2.slots, h2.leak, h2.budget, h2.log,
    h2.backlog, h2.enq⟩

theorem good_resetFinishOp (s : Pool T) (h : Good s) :
    Good (resetFinishOp s) := by
  refine ⟨by simp [resetFinishOp], by simp [resetFinishOp],
    by simp [resetFinishOp], ?_, h.leak, h.budget, by simp [resetFinishOp],
    by simp [resetFinishOp], by simp [resetFinishOp]⟩
  simp only [resetFinishOp]
  exact h.slots

theorem good_step (s : Pool T) (e : Ev T) (s' : Pool T) (oe : Option Err)
    (h : Good s) (hs : step s e = some (s', oe)) : Good s' := by
  cases e with
  | add xs =>
      simp only [step, Option.some.injEq] at hs
      have h1 : (addOp s xs).1 = s' := congrArg Prod.fst hs
      exact h1 ▸ good_addOp s xs h
  | start obs =>
      simp only [step, Option.some.injEq] at hs
      have h1 : (startOp s obs).1 = s' := congrArg Prod.fst hs
      exact h1 ▸ good_startOp s obs h
  | settleOk k =>
      simp only [step] at hs
      cases hq : settleOkAt s k with
      | none => rw [hq] at hs; cases hs
      | some u =>
          rw [hq] at hs
          simp only [Option.map_some', Option.some.injEq] at hs
          have h1 : u = s' := congrArg Prod.fst hs
          exact h1 ▸ good_settleOkAt s k u h hq
  | settleFail k reason =>
      simp only [step] at hs
      cases hq : settleFailAt s k reason with
      | none => rw [hq] at hs; cases hs
      | some u =>
          rw [hq] at hs
          simp only [Option.map_some', Option.some.injEq] at hs
          have h1 : u = s' := congrArg Prod.fst hs
          exact h1 ▸ good_settleFailAt s k reason u h hq
  | pause =>
      simp only [step, Option.some.injEq, Prod.mk.injEq] at hs
      exact hs.1 ▸ good_pauseOp s h
  | resume =>
      simp only [step, Option.some.injEq] at hs
      have h1 : (resumeOp s).1 = s' := congrArg Prod.fst hs
      exact h1 ▸ good_resumeOp s h
  | resetCall =>
      simp only [step, Option.some.injEq, Prod.mk.injEq] at hs
      exact hs.1 ▸ good_resetCallOp s h
  | resetFinish =>
      simp only [step] at hs
      split at hs
      · simp only [Option.some.injEq, Prod.mk.injEq] at hs
        exact hs.1 ▸ good_resetFinishOp s h
      · cases hs
  | setConcurrency c =>
      simp only [step, Option.some.injEq, Prod.mk.injEq] at hs
      refine hs.1 ▸ ?_
      exact ⟨h.sum, h.evs, h.comp, h.slots, h.leak, h.budget, h.log,
        h.backlog, h.enq⟩
  | setRetries r =>
      simp only [step, Option.some.injEq, Prod.mk.injEq] at hs
      refine hs.1 ▸ ?_
      exact ⟨h.sum, h.evs, h.comp, h.slots, h.leak, h.budget, h.log,
        h.backlog, h.enq⟩
  | setEndless b =>
      simp only [step, Option.some.injEq, Prod.mk.injEq] at hs
      refine hs.1 ▸ ?_
      exact ⟨h.sum, h.evs, h.comp, h.slots, h.leak, h.budget, h.log,
        h.backlog, h.enq⟩

theorem good_run (tr : List (Ev T)) :
    ∀ (s s' : Pool T), Good s → run s tr = some s' → Good s' := by
  induction tr with
  | nil =>
      intro s s' h hr
      simp only [run, Option.some.injEq] at hr
      exact hr ▸ h
  | cons e tr ih =>
      intro s s' h hr
      simp only [run] at hr
      cases hstep : step s e with
      | none => rw [hstep] at hr; cases hr
      | some r =>
          rw [hstep] at hr
          exact ih r.1 s' (good_step s e r.1 r.2 h hstep) hr

/-! Concurrency-bound infrastructure: no handler ever raises the running
count above `max` of its value on entry and the configured bound, and only
an explicit `setConcurrency` reconfiguration changes the bound. -/

theorem sweepDone_cc (s : Pool T) :
    (sweepDone s).1.currentConcurrency = s.currentConcurrency ∧
    (sweepDone s).1.concurrency = s.concurrency := by
  unfold sweepDone
  cases s.deferred <;> exact ⟨rfl, rfl⟩

theorem sweepCheck_cc (s : Pool T) :
    (sweepCheck s).1.currentConcurrency = s.currentConcurrency ∧
    (sweepCheck s).1.concurrency = s.concurrency := by
  unfold sweepCheck
  split
  · exact sweepDone_cc s
  · exact ⟨rfl, rfl⟩

theorem startSweep_cc (s : Pool T) :
    (startSweep s).1.currentConcurrency ≤
      max s.currentConcurrency s.concurrency ∧
    (startSweep s).1.concurrency = s.concurrency := by
  unfold startSweep
  refine ⟨?_, ?_⟩
  · rw [(sweepCheck_cc _).1]
    simpa using startLoop_cc_le s.tasksData s
  · rw [(sweepCheck_cc _).2]
    simp

theorem pauseCheck_cc (s : Pool T) :
    (pauseCheck s).1.currentConcurrency ≤
      max s.currentConcurrency s.concurrency ∧
    (pauseCheck s).1.concurrency = s.concurrency := by
  unfold pauseCheck
  cases s.pauseDeferred with
  | none => exact startSweep_cc s
  | some pd =>
      dsimp only
      split
      · exact ⟨le_max_left _ _, rfl⟩
      · exact ⟨le_max_left _ _, rfl⟩

theorem nextSlot_cc (s : Pool T) :
    (nextSlot s).1.currentConcurrency ≤
      max s.currentConcurrency s.concurrency ∧
    (nextSlot s).1.concurrency = s.concurrency := by
  unfold nextSlot
  have h := pauseCheck_cc { s with currentConcurrency := s.currentConcurrency - 1 }
  refine ⟨le_trans h.1 ?_, h.2⟩
  simp only
  apply max_le_max_right
  omega

theorem notifyThenNext_cc (s : Pool T) (p : IProgress) :
    (notifyThenNext s p).currentConcurrency ≤
      max s.currentConcurrency s.concurrency ∧
    (notifyThenNext s p).concurrency = s.concurrency := by
  unfold notifyThenNext
  cases notifyErr s p with
  | some e => exact ⟨le_max_left _ _, rfl⟩
  | none =>
      have h := nextSlot_cc (logEvent s p)
      unfold recordErr
      cases (nextSlot (logEvent s p)).2 with
      | none => exact ⟨h.1, h.2⟩
      | some e => exact ⟨h.1, h.2⟩

theorem settleOkAt_cc (s : Pool T) (k : Nat) (s' : Pool T)
    (hs : settleOkAt s k = some s') :
    s'.currentConcurrency ≤ max s.currentConcurrency s.concurrency ∧
    s'.concurrency = s.concurrency := by
  unfold settleOkAt at hs
  cases hget : s.running[k]? with
  | none => rw [hget] at hs; cases hs
  | some t =>
      rw [hget] at hs
      cases hs
      exact notifyThenNext_cc _ _

theorem retryStep_cc (s : Pool T) (k : Nat) (t : Running T) (reason : Err) :
    (retryStep s k t reason).currentConcurrency ≤
      max s.currentConcurrency s.concurrency ∧
    (retryStep s k t reason).concurrency = s.concurrency := by
  unfold retryStep
  cases notifyErr s (mkProgress s t.index false (some reason) (some t.remaining)) with
  | some e => exact ⟨le_max_left _ _, rfl⟩
  | none => exact ⟨le_max_left _ _, rfl⟩

theorem settleFailAt_cc (s : Pool T) (k : Nat) (reason : Err) (s' : Pool T)
    (hs : settleFailAt s k reason = some s') :
    s'.currentConcurrency ≤ max s.currentConcurrency s.concurrency ∧
    s'.concurrency = s.concurrency := by
  unfold settleFailAt at hs
  cases hget : s.running[k]? with
  | none => rw [hget] at hs; cases hs
  | some t =>
      rw [hget] at hs
      dsimp only at hs
      split at hs
      · cases hs
        exact retryStep_cc s k t reason
      · cases hs
        exact notifyThenNext_cc _ _

theorem addOp_cc (s : Pool T) (xs : List T) :
    (addOp s xs).1.currentConcurrency ≤
      max s.currentConcurrency s.concurrency ∧
    (addOp s xs).1.concurrency = s.concurrency := by
  unfold addOp
  split
  · exact ⟨le_max_left _ _, rfl⟩
  · exact startSweep_cc _

theorem startOp_cc (s : Pool T) (obs : Option (IProgress → Except Err Unit)) :
    (startOp s obs).1.currentConcurrency ≤
      max s.currentConcurrency s.concurrency ∧
    (startOp s obs).1.concurrency = s.concurrency := by
  unfold startOp
  cases s.deferred with
  | some d => exact ⟨le_max_left _ _, rfl⟩
  | none =>
      have h := startSweep_cc
        { s with onProgress := obs, deferred := some .pending }
      exact ⟨h.1, h.2⟩

theorem resumeOp_cc (s : Pool T) :
    (resumeOp s).1.currentConcurrency ≤
      max s.currentConcurrency s.concurrency ∧
    (resumeOp s).1.concurrency = s.concurrency := by
  unfold resumeOp
  cases s.pauseDeferred with
  | none => exact ⟨le_max_left _ _, rfl⟩
  | some pd => exact startSweep_cc _

theorem pauseOp_cc (s : Pool T) :
    (pauseOp s).currentConcurrency = s.currentConcurrency ∧
    (pauseOp s).concurrency = s.concurrency := by
  unfold pauseOp
  cases s.pauseDeferred <;> exact ⟨rfl, rfl⟩

/-- Every event keeps the running count at or below the larger of its value
before the event and the configured bound; every event except an explicit
`setConcurrency` keeps the bound itself unchanged. -/
theorem step_cc (s : Pool T) (e : Ev T) (s' : Pool T) (oe : Option Err)
    (hs : step s e = some (s', oe)) :
    s'.currentConcurrency ≤ max s.currentConcurrency s.concurrency ∧
    ((∀ c, e ≠ Ev.setConcurrency c) → s'.concurrency = s.concurrency) := by
  cases e with
  | add xs =>
      simp only [step, Option.some.injEq] at hs
      have h1 : (addOp s xs).1 = s' := congrArg Prod.fst hs
      have h := addOp_cc s xs
      exact ⟨h1 ▸ h.1, fun _ => h1 ▸ h.2⟩
  | start obs =>
      simp only [step, Option.some.injEq] at hs
      have h1 : (startOp s obs).1 = s' := congrArg Prod.fst hs
      have h := startOp_cc s obs
      exact ⟨h1 ▸ h.1, fun _ => h1 ▸ h.2⟩
  | settleOk k =>
      simp only [step] at hs
      cases hq : settleOkAt s k with
      | none => rw [hq] at hs; cases hs
      | some u =>
          rw [hq] at hs
          simp only [Option.map_some', Option.some.injEq] at hs
          have h1 : u = s' := congrArg Prod.fst hs
          have h := settleOkAt_cc s k u hq
          exact ⟨h1 ▸ h.1, fun _ => h1 ▸ h.2⟩
  | settleFail k reason =>
      simp only [step] at hs
      cases hq : settleFailAt s k reason with
      | none => rw [hq] at hs; cases hs
      | some u =>
          rw [hq] at hs
          simp only [Option.map_some', Option.some.injEq] at hs
          have h1 : u = s' := congrArg Prod.fst hs
          have h := settleFailAt_cc s k reason u hq
          exact ⟨h1 ▸ h.1, fun _ => h1 ▸ h.2⟩
  | pause =>
      simp only [step, Option.some.injEq, Prod.mk.injEq] at hs
      have h := pauseOp_cc s
      exact ⟨hs.1 ▸ le_trans (le_of_eq h.1) (le_max_left _ _),
        fun _ => hs.1 ▸ h.2⟩
  | resume =>
      simp only [step, Option.some.injEq] at hs
      have h1 : (resumeOp s).1 = s' := congrArg Prod.fst hs
      have h := resumeOp_cc s
      exact ⟨h1 ▸ h.1, fun _ => h1 ▸ h.2⟩
  | resetCall =>
      simp only [step, Option.some.injEq, Prod.mk.injEq] at hs
      have h := pauseOp_cc s
      refine ⟨?_, fun _ => ?_⟩
      · rw [← hs.1]
        exact le_trans (le_of_eq h.1) (le_max_left _ _)
      · rw [← hs.1]
        exact h.2
  | resetFinish =>
      simp only [step] at hs
      split at hs
      · simp only [Option.some.injEq, Prod.mk.injEq] at hs
        refine ⟨?_, fun _ => ?_⟩
        · rw [← hs.1]; exact le_max_left _ _
        · rw [← hs.1]; rfl
      · cases hs
  | setConcurrency c =>
      simp only [step, Option.some.injEq, Prod.mk.injEq] at hs
      refine ⟨?_, fun hcon => absurd rfl (hcon c)⟩
      rw [← hs.1]
      exact le_max_left _ _
  | setRetries r =>
      simp only [step, Option.some.injEq, Prod.mk.injEq] at hs
      exact ⟨hs.1 ▸ le_max_left _ _, fun _ => hs.1 ▸ rfl⟩
  | setEndless b =>
      simp only [step, Option.some.injEq, Prod.mk.injEq] at hs
      exact ⟨hs.1 ▸ le_max_left _ _, fun _ => hs.1 ▸ rfl⟩

/-- Whether an event is a live reconfiguration of the `concurrency`
field. -/
def Ev.changesConcurrency : Ev T → Bool
  | .setConcurrency _ => true
  | _ => false

/-- Whether an event is a live reconfiguration of the `endless` field. -/
def Ev.changesEndless : Ev T → Bool
  | .setEndless _ => true
  | _ => false

theorem run_bound (tr : List (Ev T)) :
    ∀ (s s' : Pool T) (c : Int), s.concurrency = c →
      s.currentConcurrency ≤ c →
      (∀ e ∈ tr, e.changesConcurrency = false) →
      run s tr = some s' →
      s'.concurrency = c ∧ s'.currentConcurrency ≤ c := by
  induction tr with
  | nil =>
      intro s s' c h1 h2 _ hr
      simp only [run, Option.some.injEq] at hr
      exact hr ▸ ⟨h1, h2⟩
  | cons e tr ih =>
      intro s s' c h1 h2 hev hr
      simp only [run] at hr
      cases hstep : step s e with
      | none => rw [hstep] at hr; cases hr
      | some r =>
          rw [hstep] at hr
          have hc := step_cc s e r.1 r.2 (by rw [hstep])
          have hne : ∀ d, e ≠ Ev.setConcurrency d := by
            intro d hd
            have := hev e (List.mem_cons_self e tr)
            rw [hd] at this
            simp [Ev.changesConcurrency] at this
          refine ih r.1 s' c (by rw [hc.2 hne, h1]) ?_
            (fun f hf => hev f (List.mem_cons_of_mem e hf)) hr
          calc r.1.currentConcurrency
              ≤ max s.currentConcurrency s.concurrency := hc.1
            _ ≤ c := by rw [h1]; exact max_le h2 le_rfl

/-! Endless-mode infrastructure: with `endless = true` the terminal
completion check never fires, so the completion deferred can never settle
and `start()` never hands back a completion promise. -/

def EndlessInv (s : Pool T) : Prop :=
  s.endless = true ∧
  (s.deferred = none ∨ s.deferred = some Deferred.pending) ∧
  s.completionLog = [] ∧
  ∀ b ∈ s.startReturns, b = false

/-- With `endless = true` the terminal-completion check is dead code. -/
theorem sweepCheck_endless (s : Pool T) (h : s.endless = true) :
    sweepCheck s = (s, none) := by
  unfold sweepCheck
  rw [if_neg]
  intro hc
  rw [h] at hc
  cases hc.1

theorem endlessInv_startSweep (s : Pool T) (h : EndlessInv s) :
    EndlessInv (startSweep s).1 := by
  unfold startSweep
  rw [sweepCheck_endless _ (by simpa using h.1)]
  exact ⟨by simpa using h.1, by simpa using h.2.1, by simpa using h.2.2.1,
    by simpa using h.2.2.2⟩

theorem endlessInv_pauseCheck (s : Pool T) (h : EndlessInv s) :
    EndlessInv (pauseCheck s).1 := by
  unfold pauseCheck
  cases s.pauseDeferred with
  | none => exact endlessInv_startSweep s h
  | some pd =>
      dsimp only
      split
      · exact h
      · exact h

theorem endlessInv_nextSlot (s : Pool T) (h : EndlessInv s) :
    EndlessInv (nextSlot s).1 := by
  unfold nextSlot
  exact endlessInv_pauseCheck _ ⟨h.1, h.2.1, h.2.2.1, h.2.2.2⟩

theorem endlessInv_notifyThenNext (s : Pool T) (p : IProgress)
    (h : EndlessInv s) : EndlessInv (notifyThenNext s p) := by
  unfold notifyThenNext
  cases notifyErr s p with
  | some e => exact ⟨h.1, h.2.1, h.2.2.1, h.2.2.2⟩
  | none =>
      have h2 := endlessInv_nextSlot (logEvent s p)
        ⟨h.1, h.2.1, h.2.2.1, h.2.2.2⟩
      unfold recordErr
      cases (nextSlot (logEvent s p)).2 with
      | none => exact h2
      | some e => exact ⟨h2.1, h2.2.1, h2.2.2.1, h2.2.2.2⟩

theorem endlessInv_step (s : Pool T) (e : Ev T) (s' : Pool T)
    (oe : Option Err) (h : EndlessInv s) (hs : step s e = some (s', oe))
    (hne : e.changesEndless = false) : EndlessInv s' := by
  cases e with
  | add xs =>
      simp only [step, Option.some.injEq] at hs
      have h1 : (addOp s xs).1 = s' := congrArg Prod.fst hs
      refine h1 ▸ ?_
      unfold addOp
      split
      · exact h
      · exact endlessInv_startSweep _ ⟨h.1, h.2.1, h.2.2.1, h.2.2.2⟩
  | start obs =>
      simp only [step, Option.some.injEq] at hs
      have h1 : (startOp s obs).1 = s' := congrArg Prod.fst hs
      refine h1 ▸ ?_
      unfold startOp
      cases s.deferred with
      | some d =>
          unfold pushStartReturn
          refine ⟨h.1, h.2.1, h.2.2.1, ?_⟩
          intro b hb
          rcases List.mem_append.mp hb with hb | hb
          · exact h.2.2.2 b hb
          · rcases List.mem_singleton.mp hb with rfl
            simp [h.1]
      | none =>
          have h2 := endlessInv_startSweep
            { s with onProgress := obs, deferred := some .pending }
            ⟨h.1, Or.inr rfl, h.2.2.1, h.2.2.2⟩
          unfold pushStartReturn
          refine ⟨h2.1, h2.2.1, h2.2.2.1, ?_⟩
          intro b hb
          rcases List.mem_append.mp hb with hb | hb
          · exact h2.2.2.2 b hb
          · rcases List.mem_singleton.mp hb with rfl
            simp [h2.1]
  | settleOk k =>
      simp only [step] at hs
      cases hq : settleOkAt s k with
      | none => rw [hq] at hs; cases hs
      | some u =>
          rw [hq] at hs
          simp only [Option.map_some', Option.some.injEq] at hs
          have h1 : u = s' := congrArg Prod.fst hs
          refine h1 ▸ ?_
          unfold settleOkAt at hq
          cases hget : s.running[k]? with
          | none => rw [hget] at hq; cases hq
          | some t =>
              rw [hget] at hq
              cases hq
              exact endlessInv_notifyThenNext _ _
                ⟨h.1, h.2.1, h.2.2.1, h.2.2.2⟩
  | settleFail k reason =>
      simp only [step] at hs
      cases hq : settleFailAt s k reason with
      | none => rw [hq] at hs; cases hs
      | some u =>
          rw [hq] at hs
          simp only [Option.map_some', Option.some.injEq] at hs
          have h1 : u = s' := congrArg Prod.fst hs
          refine h1 ▸ ?_
          unfold settleFailAt at hq
          cases hget : s.running[k]? with
          | none => rw [hget] at hq; cases hq
          | some t =>
              rw [hget] at hq
              dsimp only at hq
              split at hq
              · cases hq
                unfold retryStep
                cases notifyErr s (mkProgress s t.index false (some reason)
                    (some t.remaining)) with
                | some e => exact ⟨h.1, h.2.1, h.2.2.1, h.2.2.2⟩
                | none => exact ⟨h.1, h.2.1, h.2.2.1, h.2.2.2⟩
              · cases hq
                exact endlessInv_notifyThenNext _ _
                  ⟨h.1, h.2.1, h.2.2.1, h.2.2.2⟩
  | pause =>
      simp only [step, Option.some.injEq, Prod.mk.injEq] at hs
      refine hs.1 ▸ ?_
      unfold pauseOp
      cases s.pauseDeferred with
      | some pd => exact h
      | none => exact ⟨h.1, h.2.1, h.2.2.1, h.2.2.2⟩
  | resume =>
      simp only [step, Option.some.injEq] at hs
      have h1 : (resumeOp s).1 = s' := congrArg Prod.fst hs
      refine h1 ▸ ?_
      unfold resumeOp
      cases s.pauseDeferred with
      | none => exact h
      | some pd =>
          exact endlessInv_startSweep _ ⟨h.1, h.2.1, h.2.2.1, h.2.2.2⟩
  | resetCall =>
      simp only [step, Option.some.injEq, Prod.mk.injEq] at hs
      refine hs.1 ▸ ?_
      have h2 : EndlessInv (pauseOp s) := by
        unfold pauseOp
        cases s.pauseDeferred with
        | some pd => exact h
        | none => exact ⟨h.1, h.2.1, h.2.2.1, h.2.2.2⟩
      exact ⟨h2.1, h2.2.1, h2.2.2.1, h2.2.2.2⟩
  | resetFinish =>
      simp only [step] at hs
      split at hs
      · simp only [Option.some.injEq, Prod.mk.injEq] at hs
        refine hs.1 ▸ ?_
        exact ⟨h.1, Or.inl rfl, rfl, by intro b hb; cases hb⟩
      · cases hs
  | setConcurrency c =>
      simp only [step, Option.some.injEq, Prod.mk.injEq] at hs
      exact hs.1 ▸ ⟨h.1, h.2.1, h.2.2.1, h.2.2.2⟩
  | setRetries r =>
      simp only [step, Option.some.injEq, Prod.mk.injEq] at hs
      exact hs.1 ▸ ⟨h.1, h.2.1, h.2.2.1, h.2.2.2⟩
  | setEndless b =>
      simp [Ev.changesEndless] at hne

theorem endlessInv_run (tr : List (Ev T)) :
    ∀ (s s' : Pool T), EndlessInv s →
      (∀ e ∈ tr, e.changesEndless = false) →
      run s tr = some s' → EndlessInv s' := by
  induction tr with
  | nil =>
      intro s s' h _ hr
      simp only [run, Option.some.injEq] at hr
      exact hr ▸ h
  | cons e tr ih =>
      intro s s' h hev hr
      simp only [run] at hr
      cases hstep : step s e with
      | none => rw [hstep] at hr; cases hr
      | some r =>
          rw [hstep] at hr
          exact ih r.1 s'
            (endlessInv_step s e r.1 r.2 h hstep
              (hev e (List.mem_cons_self e tr)))
            (fun f hf => hev f (List.mem_cons_of_mem e hf)) hr

theorem run_append (t1 t2 : List (Ev T)) :
    ∀ s : Pool T, run s (t1 ++ t2) =
      (run s t1).bind (fun s' => run s' t2) := by
  induction t1 with
  | nil => intro s; simp [run]
  | cons e t1 ih =>
      intro s
      simp only [List.cons_append, run]
      cases step s e with
      | none => rfl
      | some r => exact ih r.1

/-! The source never calls `reject` on the completion deferred, so no
reachable state can have it rejected: the pool's completion signal has no
failure path at all. -/

def NoRej (s : Pool T) : Prop :=
  ∀ r : Err, s.deferred ≠ some (Deferred.rejectedD r)

theorem noRej_resolve (d : Deferred IResult) (v : IResult)
    (h : ∀ r, some d ≠ some (Deferred.rejectedD r)) :
    ∀ r : Err, some (d.resolve v) ≠ some (Deferred.rejectedD r) := by
  intro r hr
  cases d with
  | pending => cases hr
  | resolved w => cases hr
  | rejectedD e => exact h e rfl

theorem noRej_sweepDone (s : Pool T) (h : NoRej s) : NoRej (sweepDone s).1 := by
  unfold sweepDone
  cases hd : s.deferred with
  | none => exact h
  | some d =>
      intro r
      exact noRej_resolve d (poolResult s) (fun r2 => hd ▸ h r2) r

theorem noRej_sweepCheck (s : Pool T) (h : NoRej s) :
    NoRej (sweepCheck s).1 := by
  unfold sweepCheck
  split
  · exact noRej_sweepDone s h
  · exact h

theorem noRej_startSweep (s : Pool T) (h : NoRej s) :
    NoRej (startSweep s).1 := by
  apply noRej_sweepCheck
  intro r
  rw [startLoop_deferred]
  exact h r

theorem noRej_pauseCheck (s : Pool T) (h : NoRej s) :
    NoRej (pauseCheck s).1 := by
  unfold pauseCheck
  cases s.pauseDeferred with
  | none => exact noRej_startSweep s h
  | some pd =>
      dsimp only
      split
      · exact h
      · exact h

theorem noRej_nextSlot (s : Pool T) (h : NoRej s) : NoRej (nextSlot s).1 :=
  noRej_pauseCheck _ (fun r => h r)

theorem noRej_notifyThenNext (s : Pool T) (p : IProgress) (h : NoRej s) :
    NoRej (notifyThenNext s p) := by
  unfold notifyThenNext
  cases notifyErr s p with
  | some e => exact fun r => h r
  | none =>
      have h2 := noRej_nextSlot (logEvent s p) (fun r => h r)
      unfold recordErr
      cases (nextSlot (logEvent s p)).2 with
      | none => exact h2
      | some e => exact fun r => h2 r

theorem noRej_step (s : Pool T) (e : Ev T) (s' : Pool T) (oe : Option Err)
    (h : NoRej s) (hs : step s e = some (s', oe)) : NoRej s' := by
  cases e with
  | add xs =>
      simp only [step, Option.some.injEq] at hs
      have h1 : (addOp s xs).1 = s' := congrArg Prod.fst hs
      refine h1 ▸ ?_
      unfold addOp
      split
      · exact h
      · exact noRej_startSweep _ (fun r => h r)
  | start obs =>
      simp only [step, Option.some.injEq] at hs
      have h1 : (startOp s obs).1 = s' := congrArg Prod.fst hs
      refine h1 ▸ ?_
      unfold startOp
      cases s.deferred with
      | some d => exact fun r => h r
      | none =>
          have h2 := noRej_startSweep
            { s with onProgress := obs, deferred := some .pending }
            (fun r hr => by cases hr)
          exact fun r => h2 r
  | settleOk k =>
      simp only [step] at hs
      cases hq : settleOkAt s k with
      | none => rw [hq] at hs; cases hs
      | some u =>
          rw [hq] at hs
          simp only [Option.map_some', Option.some.injEq] at hs
          have h1 : u = s' := congrArg Prod.fst hs
          refine h1 ▸ ?_
          unfold settleOkAt at hq
          cases hget : s.running[k]? with
          | none => rw [hget] at hq; cases hq
          | some t =>
              rw [hget] at hq
              cases hq
              exact noRej_notifyThenNext _ _ (fun r => h r)
  | settleFail k reason =>
      simp only [step] at hs
      cases hq : settleFailAt s k reason with
      | none => rw [hq] at hs; cases hs
      | some u =>
          rw [hq] at hs
          simp only [Option.map_some', Option.some.injEq] at hs
          have h1 : u = s' := congrArg Prod.fst hs
          refine h1 ▸ ?_
          unfold settleFailAt at hq
          cases hget : s.running[k]? with
          | none => rw [hget] at hq; cases hq
          | some t =>
              rw [hget] at hq
              dsimp only at hq
              split at hq
              · cases hq
                unfold retryStep
                cases notifyErr s (mkProgress s t.index false (some reason)
                    (some t.remaining)) with
                | some e => exact fun r => h r
                | none => exact fun r => h r
              · cases hq
                exact noRej_notifyThenNext _ _ (fun r => h r)
  | pause =>
      simp only [step, Option.some.injEq, Prod.mk.injEq] at hs
      refine hs.1 ▸ ?_
      unfold pauseOp
      cases s.pauseDeferred with
      | some pd => exact h
      | none => exact fun r => h r
  | resume =>
      simp only [step, Option.some.injEq] at hs
      have h1 : (resumeOp s).1 = s' := congrArg Prod.fst hs
      refine h1 ▸ ?_
      unfold resumeOp
      cases s.pauseDeferred with
      | none => exact h
      | some pd => exact noRej_startSweep _ (fun r => h r)
  | resetCall =>
      simp only [step, Option.some.injEq, Prod.mk.injEq] at hs
      refine hs.1 ▸ ?_
      have h2 : NoRej (pauseOp s) := by
        unfold pauseOp
        cases s.pauseDeferred with
        | some pd => exact h
        | none => exact fun r => h r
      exact fun r => h2 r
  | resetFinish =>
      simp only [step] at hs
      split at hs
      · simp only [Option.some.injEq, Prod.mk.injEq] at hs
        refine hs.1 ▸ ?_
        intro r hr
        cases hr
      · cases hs
  | setConcurrency c =>
      simp only [step, Option.some.injEq, Prod.mk.injEq] at hs
      exact hs.1 ▸ fun r => h r
  | setRetries r =>
      simp only [step, Option.some.injEq, Prod.mk.injEq] at hs
      exact hs.1 ▸ fun r => h r
  | setEndless b =>
      simp only [step, Option.some.injEq, Prod.mk.injEq] at hs
      exact hs.1 ▸ fun r => h r

theorem noRej_run (tr : List (Ev T)) :
    ∀ (s s' : Pool T), NoRej s → run s tr = some s' → NoRej s' := by
  induction tr with
  | nil =>
      intro s s' h hr
      simp only [run, Option.some.injEq] at hr
      exact hr ▸ h
  | cons e tr ih =>
      intro s s' h hr
      simp only [run] at hr
      cases hstep : step s e with
      | none => rw [hstep] at hr; cases hr
      | some r =>
          rw [hstep] at hr
          exact ih r.1 s' (noRej_step s e r.1 r.2 h hstep) hr

/-! The `_next` path never touches the four public counters; only the
bookkeeping in `_process`'s callbacks does. -/

theorem sweepDone_counters (s : Pool T) :
    (sweepDone s).1.fulfilled = s.fulfilled ∧
    (sweepDone s).1.rejected = s.rejected ∧
    (sweepDone s).1.pending = s.pending := by
  unfold sweepDone
  cases s.deferred <;> exact ⟨rfl, rfl, rfl⟩

theorem startSweep_counters (s : Pool T) :
    (startSweep s).1.fulfilled = s.fulfilled ∧
    (startSweep s).1.rejected = s.rejected ∧
    (startSweep s).1.pending = s.pending := by
  unfold startSweep sweepCheck
  split
  · have h := sweepDone_counters (startLoop s s.tasksData)
    simpa using h
  · simp

theorem pauseCheck_counters (s : Pool T) :
    (pauseCheck s).1.fulfilled = s.fulfilled ∧
    (pauseCheck s).1.rejected = s.rejected ∧
    (pauseCheck s).1.pending = s.pending := by
  unfold pauseCheck
  cases s.pauseDeferred with
  | none => exact startSweep_counters s
  | some pd =>
      dsimp only
      split
      · exact ⟨rfl, rfl, rfl⟩
      · exact ⟨rfl, rfl, rfl⟩

theorem nextSlot_counters (s : Pool T) :
    (nextSlot s).1.fulfilled = s.fulfilled ∧
    (nextSlot s).1.rejected = s.rejected ∧
    (nextSlot s).1.pending = s.pending :=
  pauseCheck_counters _

theorem recordErr_counters (s : Pool T) (oe : Option Err) :
    (recordErr s oe).fulfilled = s.fulfilled ∧
    (recordErr s oe).rejected = s.rejected ∧
    (recordErr s oe).pending = s.pending := by
  unfold recordErr
  cases oe <;> exact ⟨rfl, rfl, rfl⟩

theorem notifyThenNext_counters (s : Pool T) (p : IProgress) :
    (notifyThenNext s p).fulfilled = s.fulfilled ∧
    (notifyThenNext s p).rejected = s.rejected ∧
    (notifyThenNext s p).pending = s.pending := by
  unfold notifyThenNext
  cases notifyErr s p with
  | some e => exact ⟨rfl, rfl, rfl⟩
  | none =>
      have h1 := recordErr_counters (nextSlot (logEvent s p)).1
        (nextSlot (logEvent s p)).2
      have h2 := nextSlot_counters (logEvent s p)
      exact ⟨h1.1.trans h2.1, h1.2.1.trans h2.2.1, h1.2.2.trans h2.2.2⟩

/-! Helper views of the observer invocation a given settlement performs,
used to state the retry laws: the error thrown (if any) by the observer on
the retry notification and on the terminal-failure notification of chain
`k`. -/

def retryNotifyErr (s : Pool T) (t : Running T) (reason : Err) : Option Err :=
  notifyErr s (mkProgress s t.index false (some reason) (some t.remaining))

def termNotifyErr (s : Pool T) (k : Nat) (t : Running T) (reason : Err) :
    Option Err :=
  notifyErr (failState s k)
    (mkProgress (failState s k) t.index false (some reason) (some 0))

def okNotifyErr (s : Pool T) (k : Nat) (t : Running T) : Option Err :=
  notifyErr (okState s k) (mkProgress (okState s k) t.index true none none)

/-- A failed attempt with retries remaining and a non-throwing observer
leaves the pool unchanged except for the event log and the chain's own
retry bookkeeping. -/
theorem settleFailAt_retry_eq (s : Pool T) (k : Nat) (t : Running T)
    (reason : Err) (hget : s.running[k]? = some t) (hrem : 0 < t.remaining)
    (hne : retryNotifyErr s t reason = none) :
    settleFailAt s k reason = some { logEvent s
        (mkProgress s t.index false (some reason) (some t.remaining)) with
      running := s.running.set k { t with remaining := t.remaining - 1,
                                          invocations := t.invocations + 1 } } := by
  unfold retryNotifyErr at hne
  unfold settleFailAt
  rw [hget]
  dsimp only
  rw [if_pos hrem]
  unfold retryStep
  rw [hne]

/-- C3: for a task admitted with retry budget R whose processor fails on
every attempt, the processor is invoked exactly R+1 times, with the same
payload and index; the concurrency slot is held for the whole retry
sequence and released only at the terminal outcome, which is when the task
is counted in `rejected`.  Formalised as: (a) every reachable in-flight
chain has made `budget + 1 - remaining` invocations, so the chain that
exhausts its budget (remaining = 0) has made exactly budget + 1; (b)
admission dispatches a chain carrying the current `retries` as budget, one
invocation made; (c) a failed attempt with retries remaining re-invokes the
processor on the same record (same data, same index), holding the running
count, the counters and the in-flight list length; (d) the attempt that
finds no retries remaining removes the chain, increments `rejected` and
decrements `pending`, with the invocation count at exactly budget + 1. -/
theorem C3_retry_budget {T : Type} (c : Int) (en : Bool) (tr : List (Ev T))
    (s : Pool T) (h : run (initPool T c en) tr = some s) :
    (∀ t ∈ s.running, t.invocations + t.remaining = t.budget + 1) ∧
    (∀ t' : T × Nat, (admitOne s t').running = s.running ++
      [{ data := t'.1, index := s.index, remaining := s.retries,
         seq := t'.2, budget := s.retries, invocations := 1 }]) ∧
    (∀ (k : Nat) (t : Running T) (reason : Err) (s' : Pool T),
      s.running[k]? = some t → 0 < t.remaining →
      retryNotifyErr s t reason = none →
      settleFailAt s k reason = some s' →
      s'.running[k]? = some { t with remaining := t.remaining - 1,
                                     invocations := t.invocations + 1 } ∧
      s'.currentConcurrency = s.currentConcurrency ∧
      s'.running.length = s.running.length ∧
      s'.rejected = s.rejected ∧ s'.fulfilled = s.fulfilled ∧
      s'.pending = s.pending) ∧
    (∀ (k : Nat) (t : Running T) (reason : Err) (s' : Pool T),
      s.running[k]? = some t → t.remaining = 0 →
      settleFailAt s k reason = some s' →
      t.invocations = t.budget + 1 ∧
      s'.rejected = s.rejected + 1 ∧ s'.pending = s.pending - 1) := by
  have hg := good_run tr (initPool T c en) s (good_init T c en) h
  refine ⟨hg.budget, fun t' => rfl, ?_, ?_⟩
  · intro k t reason s' hget hrem hne hs
    have hk : k < s.running.length := (List.getElem?_eq_some.mp hget).1
    rw [settleFailAt_retry_eq s k t reason hget hrem hne] at hs
    cases hs
    refine ⟨?_, rfl, ?_, rfl, rfl, rfl⟩
    · exact List.getElem?_set_self hk
    · exact List.length_set s.running k _
  · intro k t reason s' hget hrem0 hs
    unfold settleFailAt at hs
    rw [hget] at hs
    dsimp only at hs
    rw [if_neg (by omega)] at hs
    cases hs
    have hmem : t ∈ s.running := by
      rcases List.getElem?_eq_some.mp hget with ⟨h1, h2⟩
      exact h2 ▸ List.getElem_mem h1
    have hb := hg.budget t hmem
    have hcnt := notifyThenNext_counters (failState s k)
      (mkProgress (failState s k) t.index false (some reason) (some 0))
    refine ⟨by omega, ?_, ?_⟩
    · rw [hcnt.2.1]
      rfl
    · rw [hcnt.2.2]
      rfl

/-- C4: for every run and at every observable instant,
`total = fulfilled + rejected + pending` — in the live counters after every
event, in every counter snapshot handed to the progress observer, and at
the instant each CompletionResult is resolved (where `pending` is the live
pending counter at resolution time; the resolved result itself carries only
the other three counters). -/
theorem C4_counter_identity {T : Type} (c : Int) (en : Bool)
    (tr : List (Ev T)) (s : Pool T)
    (h : run (initPool T c en) tr = some s) :
    s.total = s.fulfilled + s.rejected + s.pending ∧
    (∀ p ∈ s.events, p.total = p.fulfilled + p.rejected + p.pending) ∧
    (∀ q ∈ s.completionLog,
      q.1.total = q.1.fulfilled + q.1.rejected + q.2) := by
  have hg := good_run tr (initPool T c en) s (good_init T c en) h
  exact ⟨hg.sum, hg.evs, hg.comp⟩

/-- C5: with a fixed non-negative configured concurrency the running count
never exceeds it at any reachable instant; and independently of history,
a single admission sweep never raises the running count above the larger
of its entry value and the bound currently in force — which is exactly how
a live-lowered bound is honored from the very next sweep on (no admission
happens while the count still exceeds the new bound). -/
theorem C5_concurrency_bound {T : Type} (c : Int) (en : Bool)
    (tr : List (Ev T)) (s : Pool T) (hc : 0 ≤ c)
    (hfix : ∀ e ∈ tr, e.changesConcurrency = false)
    (h : run (initPool T c en) tr = some s) :
    (s.concurrency = c ∧ s.currentConcurrency ≤ c) ∧
    (∀ (u : Pool T) (bl : List (T × Nat)),
      (startLoop u bl).currentConcurrency ≤
        max u.currentConcurrency u.concurrency) := by
  refine ⟨?_, fun u bl => startLoop_cc_le bl u⟩
  exact run_bound tr (initPool T c en) s c rfl (by simpa [initPool] using hc)
    hfix h

/-- C6: indices are assigned at admission as exactly `0, 1, ..., index-1`
in admission order, and admission order is enqueue order: every admitted
task's assigned index equals its enqueue sequence number (so for N tasks
enqueued without a reset in between, once all are admitted the indices are
exactly 0..N-1 in FIFO order, each unique and never reused).  The backlog
always holds the next enqueue numbers in order, and a retry re-invocation
keeps the chain's record — payload, index and all — in place, changing only
its retry bookkeeping. -/
theorem C6_index_assignment {T : Type} (c : Int) (en : Bool)
    (tr : List (Ev T)) (s : Pool T)
    (h : run (initPool T c en) tr = some s) :
    s.admittedLog = (List.range s.index).map (fun i => (i, i)) ∧
    s.tasksData.map Prod.snd = List.range' s.index s.tasksData.length ∧
    s.enqueued = s.index + s.tasksData.length ∧
    (∀ (k : Nat) (t : Running T) (reason : Err) (s' : Pool T),
      s.running[k]? = some t → 0 < t.remaining →
      retryNotifyErr s t reason = none →
      settleFailAt s k reason = some s' →
      s'.running[k]? = some { t with remaining := t.remaining - 1,
                                     invocations := t.invocations + 1 }) := by
  have hg := good_run tr (initPool T c en) s (good_init T c en) h
  refine ⟨hg.log, hg.backlog, hg.enq, ?_⟩
  intro k t reason s' hget hrem hne hs
  have hk : k < s.running.length := (List.getElem?_eq_some.mp hget).1
  rw [settleFailAt_retry_eq s k t reason hget hrem hne] at hs
  cases hs
  exact List.getElem?_set_self hk

/-- C7: a pool running endless (and never live-reconfigured away from it)
never settles a CompletionResult — the completion deferred stays `none` or
pending forever and the resolution log stays empty — every `start()` call
in the run returned no completion handle (`endless ? null : ...` yields
null), and `add` keeps being accepted: it never takes the completed-pool
no-op branch, raises nothing, and grows `total` and the enqueue count by
the batch size. -/
theorem C7_endless_mode {T : Type} (c : Int) (tr : List (Ev T)) (s : Pool T)
    (hne : ∀ e ∈ tr, e.changesEndless = false)
    (h : run (initPool T c true) tr = some s) :
    (s.deferred = none ∨ s.deferred = some Deferred.pending) ∧
    s.completionLog = [] ∧
    (∀ b ∈ s.startReturns, b = false) ∧
    (∀ xs : List T, (addOp s xs).2 = none ∧
      (addOp s xs).1.total = s.total + (xs.length : Int) ∧
      (addOp s xs).1.enqueued = s.enqueued + xs.length) := by
  have he := endlessInv_run tr (initPool T c true) s
    ⟨rfl, Or.inl rfl, rfl, by intro b hb; cases hb⟩ hne h
  refine ⟨he.2.1, he.2.2.1, he.2.2.2, ?_⟩
  intro xs
  have hcompl : s.completed = false := by
    unfold Pool.completed
    rcases he.2.1 with hd | hd
    · rw [hd]
    · rw [hd]
      rfl
  unfold addOp
  rw [hcompl]
  simp only [Bool.false_eq_true, if_false]
  unfold startSweep
  rw [sweepCheck_endless _ (by rw [startLoop_endless]; exact he.1)]
  refine ⟨rfl, ?_, ?_⟩
  · rw [startLoop_total]
  · rw [startLoop_enqueued]

/-- C9: the three misuse calls are warn-only no-ops: `add` on a pool whose
completion deferred exists and is settled returns with the state untouched;
`pause` while a pause deferred exists returns the existing one and changes
nothing; `resume` with no pause deferred changes nothing.  None of them
raises. -/
theorem C9_misuse_noops {T : Type} (s : Pool T) :
    (∀ (d : Deferred IResult) (xs : List T), s.deferred = some d →
      d.isPending = false → addOp s xs = (s, none)) ∧
    (∀ pd : Deferred Unit, s.pauseDeferred = some pd → pauseOp s = s) ∧
    (s.pauseDeferred = none → resumeOp s = (s, none)) := by
  refine ⟨?_, ?_, ?_⟩
  · intro d xs hd hp
    have hcompl : s.completed = true := by
      unfold Pool.completed
      rw [hd]
      dsimp only
      rw [hp]
      rfl
    unfold addOp
    rw [hcompl]
    rfl
  · intro pd hpd
    unfold pauseOp
    rw [hpd]
  · intro hpd
    unfold resumeOp
    rw [hpd]

/-- C10: on a non-endless pool whose completion deferred has not been
created yet (no `start()` call), `add` raises the TypeError from
`this._deferred.resolve(...)` exactly when its admission sweep ends with a
zero running count — e.g. `add([])` on an idle pool — rather than being a
no-op or resolving completion. -/
theorem C10_prestart_typeError {T : Type} (s : Pool T) (xs : List T)
    (hd : s.deferred = none) (he : s.endless = false) :
    ((addOp s xs).2 = some Err.typeError ↔
      (addOp s xs).1.currentConcurrency = 0) := by
  have hcompl : s.completed = false := by
    unfold Pool.completed
    rw [hd]
  unfold addOp
  rw [hcompl]
  simp only [Bool.false_eq_true, if_false]
  unfold startSweep sweepCheck
  split
  case isTrue hcond =>
    unfold sweepDone
    rw [show (startLoop { s with
        total := s.total + (xs.length : Int),
        pending := s.pending + (xs.length : Int),
        tasksData := s.tasksData ++ addTag s.enqueued xs,
        enqueued := s.enqueued + xs.length } ({ s with
        total := s.total + (xs.length : Int),
        pending := s.pending + (xs.length : Int),
        tasksData := s.tasksData ++ addTag s.enqueued xs,
        enqueued := s.enqueued + xs.length } : Pool T).tasksData).deferred
      = none by rw [startLoop_deferred]; exact hd]
    constructor
    · intro _
      exact hcond.2
    · intro _
      rfl
  case isFalse hcond =>
    constructor
    · intro hx
      cases hx
    · intro hcc
      exact absurd ⟨by rw [startLoop_endless]; exact he, hcc⟩ hcond

/-- While paused with a pending drain signal, `_next` only releases the
slot and possibly resolves the drain signal — it never sweeps. -/
theorem nextSlot_paused (s : Pool T)
    (hpd : s.pauseDeferred = some Deferred.pending) :
    nextSlot s = (if s.currentConcurrency - 1 = 0
      then ({ s with currentConcurrency := s.currentConcurrency - 1,
                     pauseDeferred := some (Deferred.resolved ()) }, none)
      else ({ s with currentConcurrency := s.currentConcurrency - 1 },
        none)) := by
  unfold nextSlot pauseCheck
  have hpd2 : ({ s with currentConcurrency := s.currentConcurrency - 1 } :
      Pool T).pauseDeferred = some Deferred.pending := hpd
  rw [hpd2]
  dsimp only
  split
  case isTrue hc => rfl
  case isFalse hc => rfl

/-- While paused with a pending drain signal, a settlement tail admits
nothing (the admission log and index are untouched) and can only resolve
the drain signal at a zero running count. -/
theorem notifyThenNext_paused (s : Pool T) (p : IProgress)
    (hpd : s.pauseDeferred = some Deferred.pending) :
    (notifyThenNext s p).admittedLog = s.admittedLog ∧
    (notifyThenNext s p).index = s.index ∧
    ((notifyThenNext s p).pauseDeferred = some (Deferred.resolved ()) →
      (notifyThenNext s p).currentConcurrency = 0) := by
  unfold notifyThenNext
  cases notifyErr s p with
  | some e =>
      refine ⟨rfl, rfl, ?_⟩
      intro heq
      have h2 : s.pauseDeferred = some (Deferred.resolved ()) := heq
      rw [hpd] at h2
      simp at h2
  | none =>
      dsimp only
      have hL : (logEvent s p).pauseDeferred = some Deferred.pending := hpd
      rw [nextSlot_paused (logEvent s p) hL]
      split
      next hc => exact ⟨rfl, rfl, fun _ => hc⟩
      next hc =>
        refine ⟨rfl, rfl, ?_⟩
        intro heq
        have h2 : s.pauseDeferred = some (Deferred.resolved ()) := heq
        rw [hpd] at h2
        simp at h2

/-- C2 (amended): `pause()` creates the drain signal, resolved immediately
exactly when the running count is already 0; while the signal is pending,
settlements admit nothing — they only release slots, and the signal
resolves only at the step where the running count reaches 0.  However,
`add()` consults no pause state: it triggers an immediate admission sweep
even while paused, so items added during a pause are admitted at once when
slots are free (see the counterexample), and the drain signal then also
waits for those tasks. -/
theorem C2_pause_drain_amended {T : Type} (s : Pool T) :
    (s.pauseDeferred = none →
      (pauseOp s).pauseDeferred = some (pauseInit s) ∧
      (s.currentConcurrency = 0 → pauseInit s = Deferred.resolved ()) ∧
      (s.currentConcurrency ≠ 0 → pauseInit s = Deferred.pending)) ∧
    (∀ (k : Nat) (s' : Pool T), s.pauseDeferred = some Deferred.pending →
      settleOkAt s k = some s' →
      s'.admittedLog = s.admittedLog ∧ s'.index = s.index ∧
      (s'.pauseDeferred = some (Deferred.resolved ()) →
        s'.currentConcurrency = 0)) ∧
    (∀ (k : Nat) (reason : Err) (s' : Pool T),
      s.pauseDeferred = some Deferred.pending →
      settleFailAt s k reason = some s' →
      s'.admittedLog = s.admittedLog ∧ s'.index = s.index ∧
      (s'.pauseDeferred = some (Deferred.resolved ()) →
        s'.currentConcurrency = 0)) := by
  refine ⟨?_, ?_, ?_⟩
  · intro hpd
    refine ⟨?_, ?_, ?_⟩
    · unfold pauseOp
      rw [hpd]
    · intro hc
      unfold pauseInit
      rw [if_pos hc]
    · intro hc
      unfold pauseInit
      rw [if_neg hc]
  · intro k s' hpd hs
    unfold settleOkAt at hs
    cases hget : s.running[k]? with
    | none => rw [hget] at hs; cases hs
    | some t =>
        rw [hget] at hs
        cases hs
        exact notifyThenNext_paused (okState s k) _ hpd
  · intro k reason s' hpd hs
    unfold settleFailAt at hs
    cases hget : s.running[k]? with
    | none => rw [hget] at hs; cases hs
    | some t =>
        rw [hget] at hs
        dsimp only at hs
        split at hs
        · cases hs
          unfold retryStep
          cases notifyErr s (mkProgress s t.index false (some reason)
              (some t.remaining)) with
          | some e =>
              refine ⟨rfl, rfl, ?_⟩
              intro heq
              have h2 : s.pauseDeferred = some (Deferred.resolved ()) := heq
              rw [hpd] at h2
              simp at h2
          | none =>
              refine ⟨rfl, rfl, ?_⟩
              intro heq
              have h2 : s.pauseDeferred = some (Deferred.resolved ()) := heq
              rw [hpd] at h2
              simp at h2
        · cases hs
          exact notifyThenNext_paused (failState s k) _ hpd

/-- C1 (amended): the code has no observer-error capture at all.  In every
reachable state the completion deferred is never rejected (the source never
calls `reject`), so the completion handle has no failure path.  When the
observer throws on a success notification, the error merely becomes an
unhandled rejection of that task's chain: `_next` is skipped so the slot is
never released, and the observer stays installed, so progress events from
other in-flight tasks keep being delivered (the event was still logged). -/
theorem C1_observer_error_amended {T : Type} (c : Int) (en : Bool)
    (tr : List (Ev T)) (s : Pool T)
    (h : run (initPool T c en) tr = some s) :
    (∀ r : Err, s.deferred ≠ some (Deferred.rejectedD r)) ∧
    (∀ (k : Nat) (t : Running T) (e : Err) (s' : Pool T),
      s.running[k]? = some t → okNotifyErr s k t = some e →
      settleOkAt s k = some s' →
      s'.currentConcurrency = s.currentConcurrency ∧
      s'.unhandled = s.unhandled ++ [e] ∧
      s'.onProgress = s.onProgress ∧
      s'.events = s.events ++
        [mkProgress (okState s k) t.index true none none]) := by
  refine ⟨noRej_run tr _ s (fun r hr => by cases hr) h, ?_⟩
  intro k t e s' hget hthrow hs
  unfold settleOkAt at hs
  rw [hget] at hs
  cases hs
  unfold okNotifyErr at hthrow
  unfold notifyThenNext
  rw [hthrow]
  have hlog : notifyLog (okState s k)
      (mkProgress (okState s k) t.index true none none) =
      [mkProgress (okState s k) t.index true none none] := by
    unfold notifyLog
    cases ho : (okState s k).onProgress with
    | none =>
        unfold notifyErr at hthrow
        rw [ho] at hthrow
        cases hthrow
    | some f => rfl
  refine ⟨rfl, rfl, rfl, ?_⟩
  show (logEvent (okState s k) _).events = _
  unfold logEvent
  rw [hlog]
  rfl

/-- C8: after terminal completion (completion deferred resolved, running
count 0, not paused), `reset()` — a `pause()` whose drain signal resolves
immediately at zero running count, followed by the clearing continuation —
leaves the pool in exactly the state of a freshly constructed pool with the
same configuration (`concurrency`, `endless` and the `retries` policy are
configuration fields and are kept): all counters 0, empty backlog, index 0,
no completion or pause deferred, no observer.  Every operation is a
function of this state, so a subsequent `add()`/`start()` cycle behaves
identically to one on a newly constructed pool.  Being drained also forces
the in-flight list empty with no leaked slots. -/
theorem C8_reset_reinitializes {T : Type} (c : Int) (en : Bool)
    (tr : List (Ev T)) (s : Pool T) (v : IResult)
    (h : run (initPool T c en) tr = some s)
    (_hres : s.deferred = some (Deferred.resolved v))
    (hcc : s.currentConcurrency = 0)
    (hpd : s.pauseDeferred = none) :
    run (initPool T c en) (tr ++ [Ev.resetCall, Ev.resetFinish]) =
      some { initPool T s.concurrency s.endless with retries := s.retries } ∧
    s.running = [] ∧ s.leaked = 0 := by
  have hg := good_run tr (initPool T c en) s (good_init T c en) h
  have hlen : s.running.length = 0 := by
    have h1 := hg.slots
    have h2 := hg.leak
    omega
  have hrun0 : s.running = [] := List.length_eq_zero.mp hlen
  have hlk0 : s.leaked = 0 := by
    have h1 := hg.slots
    rw [hcc, hlen] at h1
    omega
  refine ⟨?_, hrun0, hlk0⟩
  rw [run_append, h]
  show run s [Ev.resetCall, Ev.resetFinish] = _
  have hcall : resetCallOp s = { s with pauseDeferred := some (Deferred.resolved ()), resetPending := true } := by
    unfold resetCallOp pauseOp
    rw [hpd]
    dsimp only
    unfold pauseInit
    rw [if_pos hcc]
  have h1 : run s [Ev.resetCall, Ev.resetFinish] =
      run (resetCallOp s) [Ev.resetFinish] := rfl
  rw [h1, hcall]
  have h2 : run ({ s with pauseDeferred := some (Deferred.resolved ()), resetPending := true } : Pool T) [Ev.resetFinish] =
      some (resetFinishOp ({ s with pauseDeferred := some (Deferred.resolved ()), resetPending := true } : Pool T)) := rfl
  rw [h2]
  congr 1
  unfold resetFinishOp initPool
  simp only [hcc, hrun0, hlk0]

/-! Concrete runs used as counterexamples and witnesses. -/

def c1Obs : IProgress → Except Err Unit :=
  fun _ => Except.error (Err.userError 7)

def c1Trace : List (Ev Nat) :=
  [Ev.add [0, 1], Ev.start (some c1Obs), Ev.settleOk 0, Ev.settleOk 0]

def c1Final : Pool Nat :=
  (run (initPool Nat 2 false) c1Trace).getD (initPool Nat 2 false)

/-- C1 (counterexample): concurrency 2, two tasks admitted, observer that
always throws.  After it throws on the first success event, a second
progress event is still delivered (the event log reaches length 2, so
delivery was not stopped), the completion deferred is still pending — it
never rejects with the captured error — the two thrown errors end as
unhandled rejections, and both slots are leaked (`currentConcurrency`
stays 2 with nothing in flight), so the claimed rejection of the
completion handle can never happen. -/
theorem C1_observer_error_counterexample :
    run (initPool Nat 2 false) c1Trace = some c1Final ∧
    c1Final.events.length = 2 ∧
    c1Final.deferred = some Deferred.pending ∧
    c1Final.unhandled = [Err.userError 7, Err.userError 7] ∧
    c1Final.currentConcurrency = 2 ∧
    c1Final.running = [] :=
  ⟨rfl, rfl, rfl, rfl, rfl, rfl⟩

/-- C1 (witness for the amended theorem at the concrete counterexample
run). -/
theorem C1_observer_error_witness :
    c1Final.deferred ≠ some (Deferred.rejectedD (Err.userError 7)) :=
  (C1_observer_error_amended 2 false c1Trace c1Final rfl).1 (Err.userError 7)

def c2TraceA : List (Ev Nat) := [Ev.add [0], Ev.pause]

def c2Mid : Pool Nat :=
  (run (initPool Nat 2 false) c2TraceA).getD (initPool Nat 2 false)

def c2Final : Pool Nat := (run c2Mid [Ev.add [1]]).getD c2Mid

/-- C2 (counterexample): concurrency 2; one task admitted, then `pause()`
(drain signal pending), then `add` of one more item while paused: the item
is admitted immediately — the admission log grows from one to two entries
between `pause()` and any `resume()` — contradicting "no task is admitted
between pause() and resume()" and "items added while the pool is paused do
not trigger admission until resume()". -/
theorem C2_pause_drain_counterexample :
    run (initPool Nat 2 false) c2TraceA = some c2Mid ∧
    c2Mid.pauseDeferred = some Deferred.pending ∧
    c2Mid.admittedLog.length = 1 ∧
    run c2Mid [Ev.add [1]] = some c2Final ∧
    c2Final.pauseDeferred = some Deferred.pending ∧
    c2Final.admittedLog.length = 2 ∧
    c2Final.currentConcurrency = 2 :=
  ⟨rfl, rfl, rfl, rfl, rfl, rfl, rfl⟩

def c2Settle : Pool Nat := (settleOkAt c2Mid 0).getD c2Mid

/-- C2 (witness for the amended theorem at the concrete paused state). -/
theorem C2_pause_drain_witness :
    c2Settle.admittedLog = c2Mid.admittedLog :=
  ((C2_pause_drain_amended c2Mid).2.1 0 c2Settle rfl rfl).1

def c3Trace : List (Ev Nat) := [Ev.setRetries 1, Ev.add [5], Ev.start none]

def c3S : Pool Nat :=
  (run (initPool Nat 1 false) c3Trace).getD (initPool Nat 1 false)

def c3T : Running Nat :=
  { data := 5, index := 0, remaining := 1, seq := 0, budget := 1,
    invocations := 1 }

def c3After : Pool Nat := (settleFailAt c3S 0 (Err.userError 3)).getD c3S

/-- C3 (witness): retries 1, one admitted always-failing task; the first
failed attempt re-invokes the processor on the same chain record (second
invocation, same payload and index) while holding the slot. -/
theorem C3_retry_budget_witness :
    c3After.running[0]? =
      some { c3T with remaining := 0, invocations := 2 } ∧
    c3After.currentConcurrency = c3S.currentConcurrency :=
  ⟨((C3_retry_budget 1 false c3Trace c3S rfl).2.2.1 0 c3T (Err.userError 3)
      c3After rfl (by decide) rfl rfl).1,
   ((C3_retry_budget 1 false c3Trace c3S rfl).2.2.1 0 c3T (Err.userError 3)
      c3After rfl (by decide) rfl rfl).2.1⟩

def c4Trace : List (Ev Nat) :=
  [Ev.add [3, 4], Ev.start none, Ev.settleOk 0,
   Ev.settleFail 0 (Err.userError 1)]

def c4Final : Pool Nat :=
  (run (initPool Nat 2 false) c4Trace).getD (initPool Nat 2 false)

/-- C4 (witness): the counter identity at the end of a concrete run with
one success and one terminal failure. -/
theorem C4_counter_identity_witness :
    c4Final.total = c4Final.fulfilled + c4Final.rejected + c4Final.pending :=
  (C4_counter_identity 2 false c4Trace c4Final rfl).1

def c5Trace : List (Ev Nat) :=
  [Ev.add [1, 2, 3], Ev.start none, Ev.settleOk 0]

def c5Final : Pool Nat :=
  (run (initPool Nat 2 false) c5Trace).getD (initPool Nat 2 false)

/-- C5 (witness): the bound at the end of a concrete run in which the third
task was admitted as the first one finished. -/
theorem C5_concurrency_bound_witness :
    c5Final.concurrency = 2 ∧ c5Final.currentConcurrency ≤ 2 :=
  (C5_concurrency_bound 2 false c5Trace c5Final (by decide)
    (by intro e he; fin_cases he <;> rfl) rfl).1

def c6Trace : List (Ev Nat) := [Ev.add [10, 11, 12], Ev.start none]

def c6Final : Pool Nat :=
  (run (initPool Nat 2 false) c6Trace).getD (initPool Nat 2 false)

/-- C6 (witness): three tasks enqueued, two admitted under concurrency 2 —
the admission log is exactly indices 0 and 1 in enqueue order with index
equal to enqueue number, and the enqueue count splits into assigned
indices plus backlog. -/
theorem C6_index_assignment_witness :
    c6Final.admittedLog = [(0, 0), (1, 1)] ∧
    c6Final.enqueued = c6Final.index + c6Final.tasksData.length :=
  ⟨by rw [(C6_index_assignment 2 false c6Trace c6Final rfl).1]; rfl,
   (C6_index_assignment 2 false c6Trace c6Final rfl).2.2.1⟩

def c7Trace : List (Ev Nat) := [Ev.add [1], Ev.start none, Ev.settleOk 0]

def c7Final : Pool Nat :=
  (run (initPool Nat 3 true) c7Trace).getD (initPool Nat 3 true)

/-- C7 (witness): an endless pool whose only task has finished (backlog and
running count both zero) still has resolved nothing, and a further `add`
raises nothing. -/
theorem C7_endless_mode_witness :
    c7Final.completionLog = [] ∧ (addOp c7Final [9]).2 = none :=
  ⟨(C7_endless_mode 3 c7Trace c7Final
      (by intro e he; fin_cases he <;> rfl) rfl).2.1,
   ((C7_endless_mode 3 c7Trace c7Final
      (by intro e he; fin_cases he <;> rfl) rfl).2.2.2 [9]).1⟩

def c8Trace : List (Ev Nat) := [Ev.start none]

def c8S : Pool Nat :=
  (run (initPool Nat 2 false) c8Trace).getD (initPool Nat 2 false)

/-- C8 (witness): a pool completed empty, then reset: the run extended by
the reset call and its continuation ends in exactly the fresh-pool
state. -/
theorem C8_reset_reinitializes_witness :
    run (initPool Nat 2 false) (c8Trace ++ [Ev.resetCall, Ev.resetFinish]) =
      some { initPool Nat c8S.concurrency c8S.endless with
               retries := c8S.retries } :=
  (C8_reset_reinitializes 2 false c8Trace c8S
    { fulfilled := 0, rejected := 0, total := 0 } rfl rfl rfl rfl).1

def c9S : Pool Nat :=
  (run (initPool Nat 2 false) [Ev.start none]).getD (initPool Nat 2 false)

def c9Paused : Pool Nat :=
  (run (initPool Nat 2 false) [Ev.add [1], Ev.pause]).getD
    (initPool Nat 2 false)

/-- C9 (witness): the three misuse calls on concrete states — add on a
completed pool, pause on a paused pool, resume on a never-paused pool —
all return the state unchanged. -/
theorem C9_misuse_noops_witness :
    addOp c9S [7] = (c9S, none) ∧
    pauseOp c9Paused = c9Paused ∧
    resumeOp (initPool Nat 2 false) = (initPool Nat 2 false, none) :=
  ⟨(C9_misuse_noops c9S).1
      (Deferred.resolved { fulfilled := 0, rejected := 0, total := 0 }) [7]
      rfl rfl,
   (C9_misuse_noops c9Paused).2.1 Deferred.pending rfl,
   (C9_misuse_noops (initPool Nat 2 false)).2.2 rfl⟩

/-- C10 (witness): `add([])` on a fresh non-endless pool raises the
TypeError from the terminal-completion check. -/
theorem C10_prestart_typeError_witness :
    (addOp (initPool Nat 1 false) ([] : List Nat)).2 = some Err.typeError :=
  (C10_prestart_typeError (initPool Nat 1 false) [] rfl rfl).mpr rfl

end PromisePool
